import Mathlib

/-!
# count-words: a verification development for `main.cpp`

The program is an MPI word counter.  Rank 0 (the coordinator) reads the words,
cuts them into one contiguous slice per worker, gathers the unit pairs the
workers build, cuts those again with the same slice size, gathers the sorted
chunks, merges them by linear insertion and reduces adjacent equal words.

Modelling choices
* a `vector<T>` is a `List T`, an iterator is an index into it;
* `&v[i]` is the address `v.data() + i`, meaningful for `0 ≤ i ≤ v.size()`;
  a range `[first, last)` outside the vector, a read through an iterator
  outside the vector and the division by `size - 1 = 0` are faults;
* `send` and `receive` are modelled on the bytes of the elements; what
  `send` hands over is what `receive` returns (`receive_send`), so in the
  rounds of the coordinator a vector sent to a rank is the vector received
  there, and the coordinator receives from the ranks in the order
  `1 .. size - 1`;
* a word is the byte string held in `char word[MAX_WORD_LENGTH]` before the
  terminating NUL, so its bytes are not 0 and fewer than `MAX_WORD_LENGTH`;
  the statements range over all byte lists, these included, and `strcmp` is
  known by its sign only;
* `sort` is an insertion sort by the comparator; on vectors of unit pairs
  every sorting algorithm returns the same vector (`worker_sort_unique`);
* sizes are unbounded naturals.  The `int count` of a pair is modelled
  twice: `reduce`, used in the rounds of the coordinator, counts in unbounded
  integers, and `reduce_int` is the same loop with the 32-bit increment of
  the source.  The two agree while no count passes 2147483647
  (`reduce_int_eq_reduce`), so on the pairs of at most 2147483647 words
  (`coordinator_eq_reduce_int`); statements about vectors with arbitrary
  counts are made of `reduce_int`;
* the reduce loop runs on fuel, `reduce` gives it one unit more than the
  vector has pairs, which is enough for it to return (`reduce_cons`).
-/

namespace CountWords

/-- The bytes in `char word[MAX_WORD_LENGTH]` before the terminating NUL. -/
abbrev Word := List Nat

/-- The struct `Pair`: a word and its count. -/
structure Pair where
  word : Word
  count : Int
deriving DecidableEq, Repr

/-- What stops a run before it returns a value. -/
inductive Fault where
  | outOfBounds
  | divisionByZero
  | outOfFuel
deriving DecidableEq, Repr

deriving instance DecidableEq for Except

/-- The sign of `strcmp`: bytes are compared as unsigned values from the
front, a proper prefix is smaller. -/
def strcmp : Word → Word → Int
  | [], [] => 0
  | [], _ :: _ => -1
  | _ :: _, [] => 1
  | a :: as, b :: bs => if a < b then -1 else if b < a then 1 else strcmp as bs

/-- The comparator `compare_pairs` given to `sort`. -/
def compare_pairs (p1 p2 : Pair) : Bool :=
  decide (strcmp p1.word p2.word < 0)

/-- The call `sort(first, last, comp)`: the elements in an order where no
element is `comp`-smaller than an earlier one. -/
def std_sort {α : Type} (comp : α → α → Bool) (v : List α) : List α :=
  List.insertionSort (fun a b => comp b a = false) v

/-- Lines 30-32: `send` hands MPI the `sent.size() * sizeof(T)` bytes at
`sent.data()`, the bytes of the elements in order.  An element is the list of
its `sizeof(T)` bytes. -/
def send (sent : List (List Nat)) : List Nat :=
  sent.flatten

/-- The `n` elements of `sizeofT` bytes each that a buffer holds after
`bytes` were copied into it. -/
def elements_of_bytes (sizeofT : Nat) : Nat → List Nat → List (List Nat)
  | 0, _ => []
  | n + 1, bytes => bytes.take sizeofT :: elements_of_bytes sizeofT n (bytes.drop sizeofT)

/-- Lines 36-45: `receive`, on the bytes of the message probed.  The vector
gets `receive_size / sizeof(T)` elements (line 42), `MPI_Recv` copies the
message to `received.data()` (line 43) and the vector is returned (line 44).
There is no test of `receive_size`: bytes beyond the last whole element fall
behind the vector's elements and are not part of what is returned. -/
def receive (sizeofT : Nat) (message : List Nat) : List (List Nat) :=
  let receive_size := message.length
  elements_of_bytes sizeofT (receive_size / sizeofT) message

/-- Line 70: `elements_per_cpu = all_words.size() / (size - 1)`. -/
def elements_per_cpu (total size : Nat) : Except Fault Nat :=
  if size - 1 = 0 then Except.error Fault.divisionByZero
  else Except.ok (total / (size - 1))

/-- The range constructor `vector<T>(&v[first], &v[last])`. -/
def vector_range {α : Type} (v : List α) (first last : Nat) : Except Fault (List α) :=
  if first ≤ last ∧ last ≤ v.length then Except.ok ((v.drop first).take (last - first))
  else Except.error Fault.outOfBounds

/-- The vector sent to rank `i` (lines 73 and 83):
`[(i - 1) * e, i != size - 1 ? i * e : v.size())`. -/
def slice {α : Type} (v : List α) (e size i : Nat) : Except Fault (List α) :=
  vector_range v ((i - 1) * e) (if i ≠ size - 1 then i * e else v.length)

/-- The loop `for (int i = ...; i < size; i++) send(i, slice)` with `n`
iterations left, collecting the messages in rank order. -/
def scatterLoop {α : Type} (v : List α) (e size : Nat) : Nat → Nat → Except Fault (List (List α))
  | 0, _ => Except.ok []
  | n + 1, i =>
    match slice v e size i with
    | Except.error f => Except.error f
    | Except.ok s =>
      match scatterLoop v e size n (i + 1) with
      | Except.error f => Except.error f
      | Except.ok rest => Except.ok (s :: rest)

/-- The scatter loops of lines 72-74 and 82-84: ranks `1 .. size - 1`. -/
def scatter {α : Type} (v : List α) (e size : Nat) : Except Fault (List (List α)) :=
  scatterLoop v e size (size - 1) 1

/-- Lines 119-126: a worker turns each word into a `Pair` of count 1. -/
def worker_pairs (words : List Word) : List Pair :=
  words.map (fun w => { word := w, count := 1 })

/-- Lines 128-130: a worker sorts the pairs it received. -/
def worker_sort (pairs : List Pair) : List Pair :=
  std_sort compare_pairs pairs

/-- Lines 77-80: the coordinator appends what it receives in rank order. -/
def gather {α : Type} (received : List (List α)) : List α :=
  received.flatten

/-- Lines 89-99: scan from the front for the first pair whose word is
greater than `p.word`, insert `p` before it, else push it to the back. -/
def merge_insert (p : Pair) : List Pair → List Pair
  | [] => [p]
  | q :: rest =>
    if strcmp p.word q.word < 0 then p :: q :: rest
    else q :: merge_insert p rest

/-- Lines 87-101: every pair of every reply, in rank order, is inserted. -/
def merge (replies : List (List Pair)) : List Pair :=
  replies.foldl (fun all_pairs reply => reply.foldl (fun acc p => merge_insert p acc) all_pairs) []

/-- Lines 104-111, the loop at iterators `prev` and `it` of `v`, counting in
unbounded integers; `reduceLoop_int` is the loop with the `int` increment. -/
def reduceLoop : Nat → List Pair → Nat → Nat → Except Fault (List Pair)
  | 0, _, _, _ => Except.error Fault.outOfFuel
  | fuel + 1, v, prev, it =>
    if it = v.length then Except.ok v
    else
      match v[prev]?, v[it]? with
      | some p, some q =>
        if strcmp p.word q.word = 0 then
          let v1 := v.eraseIdx it
          match v1[prev]? with
          | some p1 => reduceLoop fuel (v1.set prev { p1 with count := p1.count + 1 }) prev it
          | none => Except.error Fault.outOfBounds
        else reduceLoop fuel v it (it + 1)
      | _, _ => Except.error Fault.outOfBounds

/-- Lines 103-111: `prev = begin()`, `it = begin() + 1`. -/
def reduce (all_pairs : List Pair) : Except Fault (List Pair) :=
  reduceLoop (all_pairs.length + 1) all_pairs 0 1

/-- The pairs the reduce loop leaves from `prev` on, by recursion on the
pairs that `it` has not visited yet. -/
def reduceFrom (prev : Pair) : List Pair → List Pair
  | [] => [prev]
  | q :: rest =>
    if strcmp prev.word q.word = 0 then reduceFrom { prev with count := prev.count + 1 } rest
    else prev :: reduceFrom q rest

/-- The value an `int` holds for the mathematical result `x`: 32 bits, two's
complement, as `prev->count++` leaves it behind 2147483647. -/
def int_wrap (x : Int) : Int :=
  (x + 2147483648) % 4294967296 - 2147483648

/-- Lines 104-111 with the `int count` of line 16: the loop of `reduceLoop`
where `prev->count++` is an `int` increment. -/
def reduceLoop_int : Nat → List Pair → Nat → Nat → Except Fault (List Pair)
  | 0, _, _, _ => Except.error Fault.outOfFuel
  | fuel + 1, v, prev, it =>
    if it = v.length then Except.ok v
    else
      match v[prev]?, v[it]? with
      | some p, some q =>
        if strcmp p.word q.word = 0 then
          let v1 := v.eraseIdx it
          match v1[prev]? with
          | some p1 =>
            reduceLoop_int fuel (v1.set prev { p1 with count := int_wrap (p1.count + 1) }) prev it
          | none => Except.error Fault.outOfBounds
        else reduceLoop_int fuel v it (it + 1)
      | _, _ => Except.error Fault.outOfBounds

/-- Lines 103-111 with `int` counts: `prev = begin()`, `it = begin() + 1`. -/
def reduce_int (all_pairs : List Pair) : Except Fault (List Pair) :=
  reduceLoop_int (all_pairs.length + 1) all_pairs 0 1

/-- The pairs the loop with `int` counts leaves from `prev` on, by recursion
on the pairs that `it` has not visited yet. -/
def reduceFrom_int (prev : Pair) : List Pair → List Pair
  | [] => [prev]
  | q :: rest =>
    if strcmp prev.word q.word = 0 then
      reduceFrom_int { prev with count := int_wrap (prev.count + 1) } rest
    else prev :: reduceFrom_int q rest

/-- Lines 86-111: merge the sorted replies, then reduce. -/
def merge_reduce (replies : List (List Pair)) : Except Fault (List Pair) :=
  reduce (merge replies)

/-- Lines 70-74: the word vectors sent to the workers. -/
def word_slices (all_words : List Word) (size : Nat) : Except Fault (List (List Word)) :=
  match elements_per_cpu all_words.length size with
  | Except.error f => Except.error f
  | Except.ok e => scatter all_words e size

/-- Lines 70-84: the pair vectors sent to the workers in the second round. -/
def pair_slices (all_words : List Word) (size : Nat) : Except Fault (List (List Pair)) :=
  match elements_per_cpu all_words.length size with
  | Except.error f => Except.error f
  | Except.ok e =>
    match scatter all_words e size with
    | Except.error f => Except.error f
    | Except.ok sent => scatter (gather (sent.map worker_pairs)) e size

/-- Lines 70-88: the sorted replies the coordinator receives. -/
def sorted_replies (all_words : List Word) (size : Nat) : Except Fault (List (List Pair)) :=
  match pair_slices all_words size with
  | Except.error f => Except.error f
  | Except.ok sent => Except.ok (sent.map worker_sort)

/-- Lines 70-111: the pairs the coordinator prints, from the words it read. -/
def coordinator (all_words : List Word) (size : Nat) : Except Fault (List Pair) :=
  match sorted_replies all_words size with
  | Except.error f => Except.error f
  | Except.ok replies => merge_reduce replies

/-! ## Orders and predicates used in the statements -/

/-- Word `a` is not after word `b`. -/
def WordLe (a b : Word) : Prop := strcmp a b ≤ 0

/-- Word `a` is before word `b`. -/
def WordLt (a b : Word) : Prop := strcmp a b < 0

instance : DecidableRel WordLe := fun a b => inferInstanceAs (Decidable (strcmp a b ≤ 0))

instance : DecidableRel WordLt := fun a b => inferInstanceAs (Decidable (strcmp a b < 0))

/-- Pair `p` has a word not after the word of `q`. -/
def PairLe (p q : Pair) : Prop := WordLe p.word q.word

/-- The words of the vector never decrease. -/
def SortedByWord (v : List Pair) : Prop := v.Pairwise PairLe

/-- The words of the vector increase strictly. -/
def StrictlySortedByWord (v : List Pair) : Prop :=
  v.Pairwise (fun p q => WordLt p.word q.word)

instance : DecidableRel PairLe := fun p q => inferInstanceAs (Decidable (WordLe p.word q.word))

instance (v : List Pair) : Decidable (SortedByWord v) :=
  inferInstanceAs (Decidable (v.Pairwise PairLe))

instance (v : List Pair) : Decidable (StrictlySortedByWord v) :=
  inferInstanceAs (Decidable (v.Pairwise (fun (p q : Pair) => WordLt p.word q.word)))

/-- Every pair of the vector has count 1. -/
def UnitCounts (v : List Pair) : Prop := ∀ p ∈ v, p.count = 1

instance (v : List Pair) : Decidable (UnitCounts v) :=
  inferInstanceAs (Decidable (∀ p ∈ v, p.count = 1))

/-- The sum of the counts of the pairs of `v` with word `w`. -/
def countSum (w : Word) (v : List Pair) : Int :=
  ((v.filter (fun q => decide (q.word = w))).map Pair.count).sum

/-- Every pair that directly follows a pair with the same word has count 1. -/
def RepeatsAreUnits (v : List Pair) : Prop :=
  v.Chain' (fun x y => strcmp x.word y.word = 0 → y.count = 1)

/-- The pairs that continue the run of equal words `p` begins, and the runs
behind that run. -/
def runsFrom (p : Pair) : List Pair → List Pair × List (List Pair)
  | [] => ([], [])
  | q :: rest =>
    if strcmp p.word q.word = 0 then (q :: (runsFrom q rest).1, (runsFrom q rest).2)
    else ([], (q :: (runsFrom q rest).1) :: (runsFrom q rest).2)

/-- The maximal runs of adjacent pairs with the same word, in order. -/
def runs : List Pair → List (List Pair)
  | [] => []
  | p :: rest => (p :: (runsFrom p rest).1) :: (runsFrom p rest).2

/-- One pair per run: the first pair of the run, its count raised by one
for every other pair of the run. -/
def collapseRuns : List (List Pair) → List Pair
  | [] => []
  | [] :: rs => collapseRuns rs
  | (p :: r) :: rs => { p with count := p.count + (r.length : Nat) } :: collapseRuns rs

/-- One pair per run: the word of the run with the length of the run. -/
def runLengths : List (List Pair) → List Pair
  | [] => []
  | [] :: rs => runLengths rs
  | (p :: r) :: rs => { word := p.word, count := ((p :: r).length : Nat) } :: runLengths rs

/-- In every run the count of the first pair is an `int`, and stays one
when 1 is added for every other pair of the run. -/
def RunsFitInt : List (List Pair) → Prop
  | [] => True
  | [] :: rs => RunsFitInt rs
  | (p :: r) :: rs =>
    (-2147483648 ≤ p.count ∧ p.count + (r.length : Nat) ≤ 2147483647) ∧ RunsFitInt rs

instance instDecidableRunsFitInt : ∀ rs : List (List Pair), Decidable (RunsFitInt rs)
  | [] => isTrue trivial
  | [] :: rs => instDecidableRunsFitInt rs
  | (p :: r) :: rs =>
    haveI := instDecidableRunsFitInt rs
    inferInstanceAs (Decidable
      ((-2147483648 ≤ p.count ∧ p.count + (r.length : Nat) ≤ 2147483647) ∧ RunsFitInt rs))

/-- The elements of the slice for rank `i` among `k` workers with slice
size `e`, as a sublist. -/
def sliceList {α : Type} (v : List α) (e k i : Nat) : List α :=
  (v.drop ((i - 1) * e)).take ((if i ≠ k then i * e else v.length) - (i - 1) * e)

/-! ## The order `strcmp` induces on words -/

theorem strcmp_self (a : Word) : strcmp a a = 0 := by
  induction a with
  | nil => rfl
  | cons x xs ih => simp [strcmp, ih]

theorem strcmp_swap (a b : Word) : strcmp b a = - strcmp a b := by
  induction a generalizing b with
  | nil => cases b <;> simp [strcmp]
  | cons x xs ih =>
    cases b with
    | nil => simp [strcmp]
    | cons y ys =>
      simp only [strcmp]
      by_cases h1 : x < y
      · have h2 : ¬ y < x := by omega
        simp [h1, h2]
      · by_cases h2 : y < x
        · simp [h1, h2]
        · simp [h1, h2, ih ys]

theorem eq_of_strcmp_eq_zero {a b : Word} (h : strcmp a b = 0) : a = b := by
  induction a generalizing b with
  | nil => cases b <;> simp_all [strcmp]
  | cons x xs ih =>
    cases b with
    | nil => simp [strcmp] at h
    | cons y ys =>
      simp only [strcmp] at h
      by_cases h1 : x < y
      · simp [h1] at h
      · by_cases h2 : y < x
        · simp [h1, h2] at h
        · simp only [h1, h2, if_false] at h
          have hxy : x = y := by omega
          rw [hxy, ih h]

theorem strcmp_eq_zero_iff (a b : Word) : strcmp a b = 0 ↔ a = b :=
  ⟨eq_of_strcmp_eq_zero, fun h => h ▸ strcmp_self a⟩

theorem strcmp_le_trans {a b c : Word} (h1 : strcmp a b ≤ 0) (h2 : strcmp b c ≤ 0) :
    strcmp a c ≤ 0 := by
  induction a generalizing b c with
  | nil => cases c <;> simp [strcmp]
  | cons x xs ih =>
    cases b with
    | nil => simp [strcmp] at h1
    | cons y ys =>
      cases c with
      | nil => simp [strcmp] at h2
      | cons z zs =>
        simp only [strcmp] at h1 h2 ⊢
        by_cases hxy : x < y
        · by_cases hyz : y < z
          · have : x < z := by omega
            simp [this]
          · by_cases hzy : z < y
            · simp [hyz, hzy] at h2
            · have : x < z := by omega
              simp [this]
        · by_cases hyx : y < x
          · simp [hxy, hyx] at h1
          · simp only [hxy, hyx, if_false] at h1
            by_cases hyz : y < z
            · have : x < z := by omega
              simp [this]
            · by_cases hzy : z < y
              · simp [hyz, hzy] at h2
              · simp only [hyz, hzy, if_false] at h2
                have h3 : ¬ x < z := by omega
                have h4 : ¬ z < x := by omega
                simp only [h3, h4, if_false]
                exact ih h1 h2

theorem strcmp_lt_of_lt_of_le {a b c : Word} (h1 : strcmp a b < 0) (h2 : strcmp b c ≤ 0) :
    strcmp a c < 0 := by
  have h3 : strcmp a c ≤ 0 := strcmp_le_trans (le_of_lt h1) h2
  rcases lt_or_eq_of_le h3 with h | h
  · exact h
  · have hac : a = c := eq_of_strcmp_eq_zero h
    subst hac
    have := strcmp_swap a b
    omega

theorem strcmp_lt_of_le_of_lt {a b c : Word} (h1 : strcmp a b ≤ 0) (h2 : strcmp b c < 0) :
    strcmp a c < 0 := by
  have h3 : strcmp a c ≤ 0 := strcmp_le_trans h1 (le_of_lt h2)
  rcases lt_or_eq_of_le h3 with h | h
  · exact h
  · have hac : a = c := eq_of_strcmp_eq_zero h
    subst hac
    have := strcmp_swap a b
    omega

theorem wordLe_antisymm : IsAntisymm Word WordLe :=
  ⟨fun a b h1 h2 => by
    unfold WordLe at h1 h2
    have := strcmp_swap a b
    exact eq_of_strcmp_eq_zero (by omega)⟩

theorem wordLe_total (a b : Word) : WordLe a b ∨ WordLe b a := by
  unfold WordLe
  have := strcmp_swap a b
  omega

/-! ## The slices the coordinator cuts -/

theorem pred_mul_le_mul (i e : Nat) : (i - 1) * e ≤ i * e :=
  Nat.mul_le_mul_right e (Nat.sub_le i 1)

theorem mul_le_of_lt_workers {i k e n : Nat} (hik : i < k) (hk : (k - 1) * e ≤ n) :
    i * e ≤ n :=
  le_trans (Nat.mul_le_mul_right e (by omega)) hk

theorem slice_eq {α : Type} (v : List α) (e k i : Nat) (hk : (k - 1) * e ≤ v.length)
    (hi : i ≤ k) : slice v e (k + 1) i = Except.ok (sliceList v e k i) := by
  unfold slice vector_range sliceList
  simp only [Nat.add_sub_cancel]
  by_cases hik : i = k
  · subst hik
    simp [hk]
  · have h1 : i * e ≤ v.length := mul_le_of_lt_workers (by omega) hk
    have h2 := pred_mul_le_mul i e
    simp [hik, h1, h2]

theorem scatterLoop_eq {α : Type} (v : List α) (e k : Nat) (hk : (k - 1) * e ≤ v.length) :
    ∀ (n i : Nat), i + n = k + 1 →
      scatterLoop v e (k + 1) n i = Except.ok ((List.range' i n).map (sliceList v e k))
  | 0, _, _ => by simp [scatterLoop]
  | n + 1, i, h => by
    have hs := slice_eq v e k i hk (by omega)
    have hr := scatterLoop_eq v e k hk n (i + 1) (by omega)
    simp [scatterLoop, hs, hr, List.range'_succ]

theorem scatter_eq {α : Type} (v : List α) (e k : Nat) (hk : (k - 1) * e ≤ v.length) :
    scatter v e (k + 1) = Except.ok ((List.range' 1 k).map (sliceList v e k)) := by
  unfold scatter
  simpa using scatterLoop_eq v e k hk k 1 (by omega)

theorem flatten_sliceList {α : Type} (v : List α) (e k : Nat) (hk : (k - 1) * e ≤ v.length) :
    ∀ (n i : Nat), 1 ≤ i → i + n = k →
      ((List.range' i (n + 1)).map (sliceList v e k)).flatten = v.drop ((i - 1) * e)
  | 0, i, _, h => by
    have hik : i = k := by omega
    subst hik
    simp [sliceList, List.range'_succ]
  | n + 1, i, hi, h => by
    have ih := flatten_sliceList v e k hk n (i + 1) (by omega) (by omega)
    rw [List.range'_succ, List.map_cons, List.flatten_cons, ih]
    have hik : i ≠ k := by omega
    have hsub : i * e - (i - 1) * e = e := by
      obtain ⟨j, rfl⟩ : ∃ j, i = j + 1 := ⟨i - 1, by omega⟩
      simp [Nat.add_mul]
    have hadd : i * e = (i - 1) * e + e := by
      have := pred_mul_le_mul i e
      omega
    simp only [sliceList, hik, ne_eq, not_false_eq_true, if_true, hsub, Nat.add_sub_cancel]
    rw [hadd, ← List.drop_drop]
    exact List.take_append_drop e _

theorem length_sliceList_of_ne {α : Type} (v : List α) (e k i : Nat)
    (hk : (k - 1) * e ≤ v.length) (hi : 1 ≤ i) (hik : i < k) :
    (sliceList v e k i).length = e := by
  have h1 : i * e ≤ v.length := mul_le_of_lt_workers hik hk
  have hadd : i * e = (i - 1) * e + e := by
    obtain ⟨j, rfl⟩ : ∃ j, i = j + 1 := ⟨i - 1, by omega⟩
    simp [Nat.add_mul]
  have hne : i ≠ k := by omega
  simp only [sliceList, hne, ne_eq, not_false_eq_true, if_true, List.length_take,
    List.length_drop]
  omega

theorem length_sliceList_last {α : Type} (v : List α) (e k : Nat) :
    (sliceList v e k k).length = v.length - (k - 1) * e := by
  simp [sliceList]

theorem pred_mul_div_le (total k : Nat) : (k - 1) * (total / k) ≤ total :=
  le_trans (pred_mul_le_mul k (total / k)) (Nat.mul_div_le total k)

/-! ## The reduce loop -/

theorem getElem?_at_prev {α : Type} (pre : List α) (p : α) (rest : List α) :
    (pre ++ p :: rest)[pre.length]? = some p := by
  rw [List.getElem?_append_right (le_refl _)]; simp

theorem getElem?_at_it {α : Type} (pre : List α) (p q : α) (rest : List α) :
    (pre ++ p :: q :: rest)[pre.length + 1]? = some q := by
  rw [List.getElem?_append_right (by omega)]; simp

theorem eraseIdx_at_it {α : Type} (pre : List α) (p q : α) (rest : List α) :
    (pre ++ p :: q :: rest).eraseIdx (pre.length + 1) = pre ++ p :: rest := by
  rw [List.eraseIdx_append_of_length_le (by omega)]
  simp

theorem set_at_prev {α : Type} (pre : List α) (p p1 : α) (rest : List α) :
    (pre ++ p :: rest).set pre.length p1 = pre ++ p1 :: rest := by
  simp

/-- With `prev` at the pair `p` and `it` right behind it, the loop returns
the pairs before `prev` followed by `reduceFrom p rest`, given fuel for the
remaining iterations. -/
theorem reduceLoop_eq (rest : List Pair) :
    ∀ (pre : List Pair) (p : Pair) (fuel : Nat), rest.length + 1 ≤ fuel →
      reduceLoop fuel (pre ++ p :: rest) pre.length (pre.length + 1)
        = Except.ok (pre ++ reduceFrom p rest) := by
  induction rest with
  | nil =>
    intro pre p fuel hf
    obtain ⟨f, rfl⟩ : ∃ f, fuel = f + 1 := ⟨fuel - 1, by simp at hf; omega⟩
    simp [reduceLoop, reduceFrom]
  | cons q rest ih =>
    intro pre p fuel hf
    obtain ⟨f, rfl⟩ : ∃ f, fuel = f + 1 := ⟨fuel - 1, by simp at hf; omega⟩
    have hf1 : rest.length + 1 ≤ f := by simp at hf; omega
    have hne : ¬ pre.length + 1 = (pre ++ p :: q :: rest).length := by simp
    rw [reduceLoop, if_neg hne, getElem?_at_prev, getElem?_at_it]
    by_cases hpq : strcmp p.word q.word = 0
    · simp only [hpq, if_true, eraseIdx_at_it, getElem?_at_prev, set_at_prev]
      rw [ih pre _ f hf1]
      simp [reduceFrom, hpq]
    · simp only [hpq, if_false]
      have h := ih (pre ++ [p]) q f hf1
      simp only [List.length_append, List.length_singleton, List.append_assoc,
        List.singleton_append] at h
      rw [h]
      simp [reduceFrom, hpq]

theorem reduce_cons (p : Pair) (rest : List Pair) :
    reduce (p :: rest) = Except.ok (reduceFrom p rest) := by
  have h := reduceLoop_eq rest [] p ((p :: rest).length + 1) (by simp)
  simpa [reduce] using h

theorem reduce_nil : reduce [] = Except.error Fault.outOfBounds := by
  simp [reduce, reduceLoop]

/-! ## Sorting and merging -/

theorem pairLe_trans {p q r : Pair} (h1 : PairLe p q) (h2 : PairLe q r) : PairLe p r :=
  strcmp_le_trans h1 h2

theorem pairLe_of_not_lt {p q : Pair} (h : ¬ strcmp p.word q.word < 0) : PairLe q p := by
  unfold PairLe WordLe
  have := strcmp_swap p.word q.word
  omega

theorem not_compare_pairs_iff (p q : Pair) : compare_pairs q p = false ↔ PairLe p q := by
  unfold compare_pairs PairLe WordLe
  have := strcmp_swap p.word q.word
  simp only [decide_eq_false_iff_not]
  omega

theorem std_sort_perm {α : Type} (comp : α → α → Bool) (v : List α) :
    (std_sort comp v).Perm v :=
  List.perm_insertionSort _ v

theorem worker_sort_perm (v : List Pair) : (worker_sort v).Perm v :=
  std_sort_perm compare_pairs v

theorem worker_sort_sorted (v : List Pair) : SortedByWord (worker_sort v) := by
  haveI : IsTotal Pair (fun a b => compare_pairs b a = false) :=
    ⟨fun a b => by
      simp only [not_compare_pairs_iff]
      exact wordLe_total a.word b.word⟩
  haveI : IsTrans Pair (fun a b => compare_pairs b a = false) :=
    ⟨fun a b c h1 h2 => by
      simp only [not_compare_pairs_iff] at h1 h2 ⊢
      exact pairLe_trans h1 h2⟩
  have h := List.sorted_insertionSort (fun a b => compare_pairs b a = false) v
  unfold SortedByWord worker_sort std_sort
  exact List.Pairwise.imp (fun {a b} hab => (not_compare_pairs_iff a b).mp hab) h

theorem merge_insert_perm (p : Pair) (v : List Pair) : (merge_insert p v).Perm (p :: v) := by
  induction v with
  | nil => simp [merge_insert]
  | cons q rest ih =>
    unfold merge_insert
    split
    · exact List.Perm.refl _
    · exact (List.Perm.cons q ih).trans (List.Perm.swap p q rest)

theorem merge_insert_sorted (p : Pair) (v : List Pair) (h : SortedByWord v) :
    SortedByWord (merge_insert p v) := by
  unfold SortedByWord at h ⊢
  induction v with
  | nil => simp [merge_insert]
  | cons q rest ih =>
    rw [List.pairwise_cons] at h
    unfold merge_insert
    split
    · rename_i hlt
      rw [List.pairwise_cons]
      refine ⟨?_, List.pairwise_cons.mpr h⟩
      intro b hb
      have hpq : PairLe p q := le_of_lt hlt
      rcases List.mem_cons.mp hb with rfl | hb
      · exact hpq
      · exact pairLe_trans hpq (h.1 b hb)
    · rename_i hlt
      rw [List.pairwise_cons]
      refine ⟨?_, ih h.2⟩
      intro b hb
      rcases List.mem_cons.mp ((merge_insert_perm p rest).mem_iff.mp hb) with rfl | hb
      · exact pairLe_of_not_lt hlt
      · exact h.1 b hb

theorem foldl_merge_insert_perm (reply acc : List Pair) :
    (reply.foldl (fun acc p => merge_insert p acc) acc).Perm (acc ++ reply) := by
  induction reply generalizing acc with
  | nil => simp
  | cons p rest ih =>
    rw [List.foldl_cons]
    refine (ih _).trans ?_
    refine ((merge_insert_perm p acc).append_right rest).trans ?_
    simp only [List.cons_append]
    exact List.perm_middle.symm

theorem foldl_merge_insert_sorted (reply acc : List Pair) (h : SortedByWord acc) :
    SortedByWord (reply.foldl (fun acc p => merge_insert p acc) acc) := by
  induction reply generalizing acc with
  | nil => simpa using h
  | cons p rest ih =>
    rw [List.foldl_cons]
    exact ih _ (merge_insert_sorted p acc h)

theorem foldl_merge_perm (replies : List (List Pair)) (acc : List Pair) :
    (replies.foldl (fun all_pairs reply => reply.foldl (fun acc p => merge_insert p acc) all_pairs)
      acc).Perm (acc ++ replies.flatten) := by
  induction replies generalizing acc with
  | nil => simp
  | cons r rest ih =>
    rw [List.foldl_cons, List.flatten_cons, ← List.append_assoc]
    exact (ih _).trans ((foldl_merge_insert_perm r acc).append_right _)

theorem foldl_merge_sorted (replies : List (List Pair)) (acc : List Pair)
    (h : SortedByWord acc) :
    SortedByWord (replies.foldl
      (fun all_pairs reply => reply.foldl (fun acc p => merge_insert p acc) all_pairs) acc) := by
  induction replies generalizing acc with
  | nil => simpa using h
  | cons r rest ih =>
    rw [List.foldl_cons]
    exact ih _ (foldl_merge_insert_sorted r acc h)

theorem merge_perm (replies : List (List Pair)) : (merge replies).Perm replies.flatten := by
  simpa [merge] using foldl_merge_perm replies []

theorem merge_sorted (replies : List (List Pair)) : SortedByWord (merge replies) :=
  foldl_merge_sorted replies [] List.Pairwise.nil

theorem unitCounts_eq_map (v : List Pair) (h : UnitCounts v) :
    v = (v.map Pair.word).map (fun w => ({ word := w, count := 1 } : Pair)) := by
  induction v with
  | nil => rfl
  | cons p rest ih =>
    have hp : p.count = 1 := h p (List.mem_cons_self _ _)
    have hr : UnitCounts rest := fun q hq => h q (List.mem_cons_of_mem _ hq)
    rw [List.map_cons, List.map_cons, ← ih hr]
    cases p
    simp only [List.cons.injEq, Pair.mk.injEq, true_and, and_true]
    exact hp

/-- Two vectors of unit pairs with the same pairs, both sorted by word,
are equal: the order in which equal words are placed does not show. -/
theorem eq_of_perm_of_sortedByWord {v1 v2 : List Pair} (hp : v1.Perm v2)
    (h1 : SortedByWord v1) (h2 : SortedByWord v2) (hu : UnitCounts v1) : v1 = v2 := by
  have hu2 : UnitCounts v2 := fun p hp2 => hu p (hp.mem_iff.mpr hp2)
  have hw : v1.map Pair.word = v2.map Pair.word := by
    haveI := wordLe_antisymm
    refine List.eq_of_perm_of_sorted (r := WordLe) (hp.map _) ?_ ?_
    · exact List.pairwise_map.mpr h1
    · exact List.pairwise_map.mpr h2
  rw [unitCounts_eq_map v1 hu, unitCounts_eq_map v2 hu2, hw]

/-! ## What the reduce loop leaves -/

theorem mem_word_reduceFrom (rest : List Pair) :
    ∀ (p : Pair) (w : Word),
      w ∈ (reduceFrom p rest).map Pair.word ↔ w ∈ (p :: rest).map Pair.word := by
  induction rest with
  | nil => intro p w; simp [reduceFrom]
  | cons q rest ih =>
    intro p w
    unfold reduceFrom
    split
    · rename_i heq
      have hpq : p.word = q.word := eq_of_strcmp_eq_zero heq
      rw [ih]
      simp only [List.map_cons, List.mem_cons, hpq]
      tauto
    · rw [List.map_cons, List.mem_cons, ih]
      simp only [List.map_cons, List.mem_cons]

theorem reduceFrom_strictlySorted (rest : List Pair) :
    ∀ (p : Pair), SortedByWord (p :: rest) → StrictlySortedByWord (reduceFrom p rest) := by
  induction rest with
  | nil => intro p _; simp [reduceFrom, StrictlySortedByWord]
  | cons q rest ih =>
    intro p h
    unfold SortedByWord at h
    rw [List.pairwise_cons] at h
    unfold reduceFrom
    split
    · apply ih
      unfold SortedByWord
      rw [List.pairwise_cons]
      exact ⟨fun b hb => h.1 b (List.mem_cons_of_mem _ hb), (List.pairwise_cons.mp h.2).2⟩
    · rename_i hne
      unfold StrictlySortedByWord
      rw [List.pairwise_cons]
      refine ⟨?_, ih q h.2⟩
      intro e he
      have hpq : WordLe p.word q.word := h.1 q (List.mem_cons_self _ _)
      have hlt : strcmp p.word q.word < 0 := lt_of_le_of_ne hpq hne
      have hmem : e.word ∈ (q :: rest).map Pair.word :=
        (mem_word_reduceFrom rest q e.word).mp (List.mem_map_of_mem _ he)
      obtain ⟨b, hb, hbe⟩ := List.mem_map.mp hmem
      have hqb : WordLe q.word b.word := by
        rcases List.mem_cons.mp hb with rfl | hb
        · exact le_of_eq (strcmp_self _)
        · exact (List.pairwise_cons.mp h.2).1 b hb
      rw [← hbe]
      exact strcmp_lt_of_lt_of_le hlt hqb

/-- After the loop a pair holds the count `prev` started with plus one for
every erased pair; with unit counts behind `prev` that is the number of
pairs with its word. -/
theorem reduceFrom_count (rest : List Pair) :
    ∀ (p : Pair), SortedByWord (p :: rest) → UnitCounts rest →
      ∀ e ∈ reduceFrom p rest,
        e.count = (if e.word = p.word then p.count - 1 else 0)
          + (((p :: rest).map Pair.word).count e.word : Nat) := by
  induction rest with
  | nil =>
    intro p _ _ e he
    simp only [reduceFrom, List.mem_singleton] at he
    subst he
    simp
  | cons q rest ih =>
    intro p h hu e he
    have hq1 : q.count = 1 := hu q (List.mem_cons_self _ _)
    have hur : UnitCounts rest := fun b hb => hu b (List.mem_cons_of_mem _ hb)
    unfold SortedByWord at h
    rw [List.pairwise_cons] at h
    unfold reduceFrom at he
    split at he
    · rename_i heq
      have hpq : p.word = q.word := eq_of_strcmp_eq_zero heq
      have hs : SortedByWord ({ p with count := p.count + 1 } :: rest) := by
        unfold SortedByWord
        rw [List.pairwise_cons]
        exact ⟨fun b hb => h.1 b (List.mem_cons_of_mem _ hb), (List.pairwise_cons.mp h.2).2⟩
      have := ih _ hs hur e he
      rw [this]
      simp only [List.map_cons, List.count_cons, ← hpq, beq_iff_eq]
      by_cases hep : e.word = p.word
      · simp only [hep, if_true]
        push_cast
        ring
      · have hpe : ¬ p.word = e.word := fun h => hep h.symm
        simp [hep, hpe]
    · rename_i hne
      have hpq : WordLe p.word q.word := h.1 q (List.mem_cons_self _ _)
      have hlt : strcmp p.word q.word < 0 := lt_of_le_of_ne hpq hne
      have hbelow : ∀ b ∈ q :: rest, ¬ b.word = p.word := by
        intro b hb hbp
        have hqb : WordLe q.word b.word := by
          rcases List.mem_cons.mp hb with rfl | hb
          · exact le_of_eq (strcmp_self _)
          · exact (List.pairwise_cons.mp h.2).1 b hb
        have := strcmp_lt_of_lt_of_le hlt hqb
        rw [hbp, strcmp_self] at this
        omega
      have hcount0 : ((q :: rest).map Pair.word).count p.word = 0 := by
        rw [List.count_eq_zero]
        intro hmem
        obtain ⟨b, hb, hbp⟩ := List.mem_map.mp hmem
        exact hbelow b hb hbp
      rcases List.mem_cons.mp he with rfl | he
      · rw [List.map_cons, List.count_cons_self, hcount0, if_pos rfl]
        push_cast
        ring
      · have hmem : e.word ∈ (q :: rest).map Pair.word :=
          (mem_word_reduceFrom rest q e.word).mp (List.mem_map_of_mem _ he)
        obtain ⟨b, hb, hbe⟩ := List.mem_map.mp hmem
        have hep : ¬ e.word = p.word := fun h => hbelow b hb (hbe.trans h)
        have hpe : ¬ p.word = e.word := fun h => hep h.symm
        have := ih q h.2 hur e he
        rw [this, hq1]
        rw [List.map_cons (f := Pair.word) (a := p), List.count_cons]
        simp [hep, hpe]

theorem sum_count_reduceFrom (rest : List Pair) :
    ∀ (p : Pair), UnitCounts rest →
      ((reduceFrom p rest).map Pair.count).sum = p.count + (rest.length : Nat) := by
  induction rest with
  | nil => intro p _; simp [reduceFrom]
  | cons q rest ih =>
    intro p hu
    have hq1 : q.count = 1 := hu q (List.mem_cons_self _ _)
    have hur : UnitCounts rest := fun b hb => hu b (List.mem_cons_of_mem _ hb)
    unfold reduceFrom
    split
    · rw [ih _ hur]
      simp only [List.length_cons]
      push_cast
      ring
    · rw [List.map_cons, List.sum_cons, ih q hur, hq1]
      simp only [List.length_cons]
      push_cast
      ring

theorem reduceFrom_of_strictlySorted (rest : List Pair) :
    ∀ (p : Pair), StrictlySortedByWord (p :: rest) → reduceFrom p rest = p :: rest := by
  induction rest with
  | nil => intro p _; rfl
  | cons q rest ih =>
    intro p h
    unfold StrictlySortedByWord at h
    rw [List.pairwise_cons] at h
    have hlt : strcmp p.word q.word < 0 := h.1 q (List.mem_cons_self _ _)
    have hne : ¬ strcmp p.word q.word = 0 := by omega
    rw [reduceFrom, if_neg hne, ih q h.2]

/-! ## The rounds of the coordinator -/

theorem elements_per_cpu_eq (total k : Nat) (hk : 1 ≤ k) :
    elements_per_cpu total (k + 1) = Except.ok (total / k) := by
  have h : ¬ k = 0 := by omega
  simp [elements_per_cpu, h]

theorem flatten_slices {α : Type} (v : List α) (e k : Nat) (hk : 1 ≤ k)
    (he : (k - 1) * e ≤ v.length) :
    ((List.range' 1 k).map (sliceList v e k)).flatten = v := by
  have h := flatten_sliceList v e k he (k - 1) 1 (le_refl 1) (by omega)
  have hk1 : k - 1 + 1 = k := by omega
  rw [hk1] at h
  simpa using h

theorem length_worker_pairs (words : List Word) : (worker_pairs words).length = words.length := by
  simp [worker_pairs]

theorem unitCounts_worker_pairs (words : List Word) : UnitCounts (worker_pairs words) := by
  intro p hp
  obtain ⟨w, _, rfl⟩ := List.mem_map.mp hp
  rfl

theorem map_word_worker_pairs (words : List Word) :
    (worker_pairs words).map Pair.word = words := by
  induction words with
  | nil => rfl
  | cons w rest ih =>
    have h : worker_pairs (w :: rest) = { word := w, count := 1 } :: worker_pairs rest := rfl
    rw [h, List.map_cons, ih]

theorem gather_map_worker_pairs (sent : List (List Word)) :
    gather (sent.map worker_pairs) = worker_pairs (gather sent) := by
  unfold gather
  have h : worker_pairs = List.map (fun w => ({ word := w, count := 1 } : Pair)) := by
    funext ws; rfl
  rw [h, List.map_flatten]

theorem word_slices_eq (all_words : List Word) (k : Nat) (hk : 1 ≤ k) :
    word_slices all_words (k + 1)
      = Except.ok ((List.range' 1 k).map (sliceList all_words (all_words.length / k) k)) := by
  unfold word_slices
  rw [elements_per_cpu_eq _ k hk]
  exact scatter_eq all_words _ k (pred_mul_div_le _ k)

theorem pair_slices_eq (all_words : List Word) (k : Nat) (hk : 1 ≤ k) :
    pair_slices all_words (k + 1)
      = Except.ok ((List.range' 1 k).map
          (sliceList (worker_pairs all_words) (all_words.length / k) k)) := by
  have he := pred_mul_div_le all_words.length k
  unfold pair_slices
  rw [elements_per_cpu_eq _ k hk]
  simp only [scatter_eq all_words _ k he]
  rw [gather_map_worker_pairs]
  unfold gather
  rw [flatten_slices all_words _ k hk he]
  exact scatter_eq _ _ k (by rw [length_worker_pairs]; exact he)

theorem sorted_replies_eq (all_words : List Word) (k : Nat) (hk : 1 ≤ k) :
    sorted_replies all_words (k + 1)
      = Except.ok (((List.range' 1 k).map
          (sliceList (worker_pairs all_words) (all_words.length / k) k)).map worker_sort) := by
  unfold sorted_replies
  rw [pair_slices_eq all_words k hk]

theorem flatten_map_perm {α : Type} (f : List α → List α) (hf : ∀ l, (f l).Perm l)
    (parts : List (List α)) : (parts.map f).flatten.Perm parts.flatten := by
  induction parts with
  | nil => simp
  | cons a rest ih =>
    rw [List.map_cons, List.flatten_cons, List.flatten_cons]
    exact (hf a).append ih

/-- The sorted replies hold, together, the unit pairs of all the words. -/
theorem sorted_replies_perm (all_words : List Word) (k : Nat) (hk : 1 ≤ k)
    (replies : List (List Pair)) (h : sorted_replies all_words (k + 1) = Except.ok replies) :
    replies.flatten.Perm (worker_pairs all_words) := by
  rw [sorted_replies_eq all_words k hk] at h
  injection h with h
  subst h
  refine (flatten_map_perm worker_sort worker_sort_perm _).trans ?_
  rw [flatten_slices _ _ k hk (by rw [length_worker_pairs]; exact pred_mul_div_le _ k)]

/-- On unit pairs the outcome of `sort` does not depend on the algorithm:
every arrangement of the pairs in which no pair is `compare_pairs`-smaller
than an earlier one is the vector `worker_sort` returns. -/
theorem worker_sort_unique (v out : List Pair) (hu : UnitCounts v) (hp : out.Perm v)
    (hs : out.Pairwise (fun a b => compare_pairs b a = false)) : out = worker_sort v := by
  have hsorted : SortedByWord out :=
    List.Pairwise.imp (fun {a b} hab => (not_compare_pairs_iff a b).mp hab) hs
  exact eq_of_perm_of_sortedByWord (hp.trans (worker_sort_perm v).symm) hsorted
    (worker_sort_sorted v) (fun p h => hu p (hp.mem_iff.mp h))

theorem unitCounts_of_perm {v1 v2 : List Pair} (hp : v1.Perm v2) (hu : UnitCounts v2) :
    UnitCounts v1 :=
  fun p h => hu p (hp.mem_iff.mp h)

/-- Merging any replies that hold the unit pairs of the words gives the
sorted vector of those unit pairs. -/
theorem merge_eq_of_perm (all_words : List Word) (rs : List (List Pair))
    (h : rs.flatten.Perm (worker_pairs all_words)) :
    merge rs = worker_sort (worker_pairs all_words) := by
  have hp : (merge rs).Perm (worker_sort (worker_pairs all_words)) :=
    ((merge_perm rs).trans h).trans (worker_sort_perm _).symm
  exact eq_of_perm_of_sortedByWord hp (merge_sorted rs) (worker_sort_sorted _)
    (unitCounts_of_perm ((merge_perm rs).trans h) (unitCounts_worker_pairs _))

/-- Whatever the number of workers, the coordinator returns what the reduce
loop makes of the sorted unit pairs of all the words. -/
theorem coordinator_eq_reduce (all_words : List Word) (k : Nat) (hk : 1 ≤ k) :
    coordinator all_words (k + 1) = reduce (worker_sort (worker_pairs all_words)) := by
  have h := sorted_replies_eq all_words k hk
  have hp := sorted_replies_perm all_words k hk _ h
  unfold coordinator
  rw [h]
  simp only [merge_reduce]
  rw [merge_eq_of_perm all_words _ hp]

theorem worker_sort_ne_nil (all_words : List Word) (hw : all_words ≠ []) :
    ∃ p rest, worker_sort (worker_pairs all_words) = p :: rest := by
  cases hs : worker_sort (worker_pairs all_words) with
  | nil =>
    have hl := (worker_sort_perm (worker_pairs all_words)).length_eq
    rw [hs, length_worker_pairs] at hl
    exact absurd (List.length_eq_zero.mp hl.symm) hw
  | cons p rest => exact ⟨p, rest, rfl⟩

theorem strictlySorted_nodup (v : List Pair) (h : StrictlySortedByWord v) :
    (v.map Pair.word).Nodup := by
  unfold StrictlySortedByWord at h
  rw [List.Nodup, List.pairwise_map]
  refine List.Pairwise.imp ?_ h
  intro p q hlt heq
  unfold WordLt at hlt
  rw [heq, strcmp_self] at hlt
  omega

theorem getElem?_map_range' {β : Type} (f : Nat → β) (k i : Nat) (hi : i < k) :
    ((List.range' 1 k).map f)[i]? = some (f (i + 1)) := by
  rw [List.getElem?_map, List.getElem?_range' _ _ hi]
  simp [Nat.add_comm]

theorem merge_insert_append (p : Pair) (acc : List Pair) (h : ∀ q ∈ acc, PairLe q p) :
    merge_insert p acc = acc ++ [p] := by
  induction acc with
  | nil => rfl
  | cons q rest ih =>
    have hq : PairLe q p := h q (List.mem_cons_self _ _)
    have hnot : ¬ strcmp p.word q.word < 0 := by
      unfold PairLe WordLe at hq
      have := strcmp_swap p.word q.word
      omega
    rw [merge_insert, if_neg hnot, ih (fun b hb => h b (List.mem_cons_of_mem _ hb))]
    rfl

/-- Inserting the pairs of a sorted reply one by one behind pairs that are
not after them appends the reply. -/
theorem foldl_merge_insert_sorted_eq (reply : List Pair) :
    ∀ (acc : List Pair), SortedByWord (acc ++ reply) →
      reply.foldl (fun acc p => merge_insert p acc) acc = acc ++ reply := by
  induction reply with
  | nil => intro acc _; simp
  | cons p rest ih =>
    intro acc h
    have hle : ∀ q ∈ acc, PairLe q p := by
      intro q hq
      unfold SortedByWord at h
      exact (List.pairwise_append.mp h).2.2 q hq p (List.mem_cons_self _ _)
    rw [List.foldl_cons, merge_insert_append p acc hle]
    have h2 : SortedByWord ((acc ++ [p]) ++ rest) := by simpa using h
    rw [ih _ h2]
    simp

theorem merge_singleton (reply : List Pair) (h : SortedByWord reply) : merge [reply] = reply := by
  have := foldl_merge_insert_sorted_eq reply [] (by simpa using h)
  simpa [merge] using this

theorem sortedByWord_of_strictlySorted (v : List Pair) (h : StrictlySortedByWord v) :
    SortedByWord v :=
  List.Pairwise.imp (fun {_ _} hlt => le_of_lt hlt) h

/-- Two vectors with the same pairs, both sorted by word and without a
repeated word, are equal. -/
theorem eq_of_perm_of_strictlySorted {v1 v2 : List Pair} (hp : v1.Perm v2)
    (h1 : StrictlySortedByWord v1) (h2 : StrictlySortedByWord v2) : v1 = v2 := by
  haveI : IsAntisymm Pair (fun p q => WordLt p.word q.word) :=
    ⟨fun p q hpq hqp => by
      unfold WordLt at hpq hqp
      have := strcmp_swap p.word q.word
      omega⟩
  exact List.eq_of_perm_of_sorted hp h1 h2

/-- Replies that together hold at least one pair and no word twice: the
merge and reduce steps return their pairs, unchanged, in the order of the
words. -/
theorem merge_reduce_of_nodup (replies : List (List Pair))
    (hne : replies.flatten ≠ []) (hnd : (replies.flatten.map Pair.word).Nodup) :
    ∃ table, merge_reduce replies = Except.ok table ∧ table.Perm replies.flatten ∧
      StrictlySortedByWord table := by
  have hperm := merge_perm replies
  have hsorted := merge_sorted replies
  have hstrict : StrictlySortedByWord (merge replies) := by
    have hnd2 : ((merge replies).map Pair.word).Nodup := (hperm.map _).nodup_iff.mpr hnd
    rw [List.Nodup, List.pairwise_map] at hnd2
    unfold StrictlySortedByWord
    unfold SortedByWord at hsorted
    refine List.Pairwise.imp₂ ?_ hsorted hnd2
    intro p q hle hneq
    exact lt_of_le_of_ne hle (fun h0 => hneq (eq_of_strcmp_eq_zero h0))
  cases hm : merge replies with
  | nil =>
    rw [hm] at hperm
    exact absurd (List.Perm.nil_eq hperm).symm hne
  | cons p rest =>
    rw [hm] at hstrict hperm
    refine ⟨p :: rest, ?_, hperm, hstrict⟩
    unfold merge_reduce
    rw [hm, reduce_cons, reduceFrom_of_strictlySorted rest p hstrict]

/-- For at least one word the printed counts add up to the number of words. -/
theorem coordinator_sum_counts (all_words : List Word) (k : Nat) (hw : all_words ≠ [])
    (hk : 1 ≤ k) :
    ∃ table, coordinator all_words (k + 1) = Except.ok table ∧
      (table.map Pair.count).sum = (all_words.length : Nat) := by
  obtain ⟨p, rest, hs⟩ := worker_sort_ne_nil all_words hw
  refine ⟨reduceFrom p rest, ?_, ?_⟩
  · rw [coordinator_eq_reduce all_words k hk, hs, reduce_cons]
  · have hu : UnitCounts (p :: rest) := by
      rw [← hs]
      exact unitCounts_of_perm (worker_sort_perm _) (unitCounts_worker_pairs _)
    have hlen : (p :: rest).length = all_words.length := by
      rw [← hs, (worker_sort_perm _).length_eq, length_worker_pairs]
    rw [sum_count_reduceFrom rest p (fun q hq => hu q (List.mem_cons_of_mem _ hq)),
      hu p (List.mem_cons_self _ _), ← hlen]
    simp only [List.length_cons]
    push_cast
    ring

/-- The order of `strcmp` is the lexicographic order of the byte strings. -/
theorem wordLt_iff_lex (a b : Word) : WordLt a b ↔ List.Lex (fun x y : Nat => x < y) a b := by
  unfold WordLt
  induction a generalizing b with
  | nil =>
    cases b with
    | nil => simp [strcmp]
    | cons y ys => simp [strcmp, List.Lex.nil]
  | cons x xs ih =>
    cases b with
    | nil => simp [strcmp]
    | cons y ys =>
      simp only [strcmp]
      by_cases h1 : x < y
      · simp [h1, List.Lex.rel h1]
      · by_cases h2 : y < x
        · simp only [h1, h2, if_false, if_true]
          constructor
          · intro h; omega
          · intro h
            cases h with
            | cons h => omega
            | rel h => omega
        · have hxy : x = y := by omega
          subst hxy
          simp only [h1, if_false]
          rw [ih ys, List.Lex.cons_iff]

theorem getElem?_worker_pairs (words : List Word) (i : Nat) :
    (worker_pairs words)[i]? = words[i]?.map (fun w => ({ word := w, count := 1 } : Pair)) := by
  unfold worker_pairs
  rw [List.getElem?_map]

theorem merge_insert_eq_takeWhile (p : Pair) (v : List Pair) :
    merge_insert p v
      = v.takeWhile (fun q => !decide (strcmp p.word q.word < 0))
        ++ p :: v.dropWhile (fun q => !decide (strcmp p.word q.word < 0)) := by
  induction v with
  | nil => rfl
  | cons q rest ih =>
    by_cases h : strcmp p.word q.word < 0
    · simp [merge_insert, List.takeWhile_cons, List.dropWhile_cons, h]
    · simp [merge_insert, List.takeWhile_cons, List.dropWhile_cons, h, ih]

theorem foldl_foldl_eq_foldl_flatten (replies : List (List Pair)) (acc : List Pair) :
    replies.foldl (fun all_pairs reply => reply.foldl (fun acc p => merge_insert p acc) all_pairs)
      acc = replies.flatten.foldl (fun acc p => merge_insert p acc) acc := by
  induction replies generalizing acc with
  | nil => rfl
  | cons r rest ih => rw [List.foldl_cons, List.flatten_cons, List.foldl_append, ih]

theorem merge_eq_foldl (replies : List (List Pair)) :
    merge replies = replies.flatten.foldl (fun acc p => merge_insert p acc) [] :=
  foldl_foldl_eq_foldl_flatten replies []

theorem sliceList_map {α β : Type} (f : α → β) (v : List α) (e k i : Nat) :
    sliceList (v.map f) e k i = (sliceList v e k i).map f := by
  simp [sliceList, List.map_take, List.map_drop]

theorem sliceList_worker_pairs (words : List Word) (e k i : Nat) :
    sliceList (worker_pairs words) e k i = worker_pairs (sliceList words e k i) :=
  sliceList_map _ words e k i

/-- Replies of unit pairs that hold the same pairs are merged into the same
vector. -/
theorem merge_eq_of_flatten_perm (rs1 rs2 : List (List Pair))
    (hp : rs1.flatten.Perm rs2.flatten) (hu : UnitCounts rs2.flatten) :
    merge rs1 = merge rs2 :=
  eq_of_perm_of_sortedByWord (((merge_perm rs1).trans hp).trans (merge_perm rs2).symm)
    (merge_sorted rs1) (merge_sorted rs2)
    (unitCounts_of_perm ((merge_perm rs1).trans hp) hu)

theorem flatten_perm_of_forall₂ {α : Type} {l1 l2 : List (List α)}
    (h : List.Forall₂ List.Perm l1 l2) : l1.flatten.Perm l2.flatten := by
  induction h with
  | nil => exact List.Perm.refl _
  | cons hab _ ih => exact hab.append ih

/-! ## The transport -/

theorem elements_of_bytes_flatten (sizeofT : Nat) :
    ∀ (sent : List (List Nat)), (∀ x ∈ sent, x.length = sizeofT) →
      elements_of_bytes sizeofT sent.length sent.flatten = sent
  | [], _ => rfl
  | x :: rest, h => by
    have hx : x.length = sizeofT := h x (List.mem_cons_self _ _)
    have ih := elements_of_bytes_flatten sizeofT rest (fun y hy => h y (List.mem_cons_of_mem _ hy))
    rw [List.length_cons, List.flatten_cons, elements_of_bytes]
    rw [List.take_left' hx, List.drop_left' hx, ih]

theorem length_flatten_of_length_eq (sizeofT : Nat) :
    ∀ (sent : List (List Nat)), (∀ x ∈ sent, x.length = sizeofT) →
      sent.flatten.length = sent.length * sizeofT
  | [], _ => by simp
  | x :: rest, h => by
    have hx : x.length = sizeofT := h x (List.mem_cons_self _ _)
    have ih := length_flatten_of_length_eq sizeofT rest
      (fun y hy => h y (List.mem_cons_of_mem _ hy))
    rw [List.flatten_cons, List.length_append, ih, hx, List.length_cons, Nat.add_mul]
    omega

/-- What `send` hands over is what `receive` returns. -/
theorem receive_send (sizeofT : Nat) (hs : 0 < sizeofT) (sent : List (List Nat))
    (h : ∀ x ∈ sent, x.length = sizeofT) :
    receive sizeofT (send sent) = sent := by
  have hlen := length_flatten_of_length_eq sizeofT sent h
  have hdiv : sent.flatten.length / sizeofT = sent.length := by
    rw [hlen]
    exact Nat.mul_div_cancel _ hs
  simp only [receive, send, hdiv]
  exact elements_of_bytes_flatten sizeofT sent h

/-! ## Counts and runs in the reduce loop -/

theorem countSum_cons (w : Word) (q : Pair) (v : List Pair) :
    countSum w (q :: v) = (if q.word = w then q.count else 0) + countSum w v := by
  unfold countSum
  by_cases h : q.word = w
  · simp [List.filter_cons, h]
  · simp [List.filter_cons, h]

theorem countSum_eq_zero (w : Word) (v : List Pair) (h : ∀ b ∈ v, ¬ b.word = w) :
    countSum w v = 0 := by
  induction v with
  | nil => rfl
  | cons q rest ih =>
    rw [countSum_cons, if_neg (h q (List.mem_cons_self _ _)),
      ih (fun b hb => h b (List.mem_cons_of_mem _ hb))]
    rfl

theorem reduceFrom_ne_nil (rest : List Pair) : ∀ (p : Pair), reduceFrom p rest ≠ [] := by
  induction rest with
  | nil => intro p; simp [reduceFrom]
  | cons q rest ih =>
    intro p
    unfold reduceFrom
    split
    · exact ih _
    · simp

theorem reduceFrom_words_sublist (rest : List Pair) :
    ∀ (p : Pair), ((reduceFrom p rest).map Pair.word).Sublist ((p :: rest).map Pair.word) := by
  induction rest with
  | nil => intro p; simp [reduceFrom]
  | cons q rest ih =>
    intro p
    unfold reduceFrom
    split
    · have h := ih { p with count := p.count + 1 }
      simp only [List.map_cons] at h ⊢
      exact List.Sublist.trans h (List.Sublist.cons₂ _ (List.sublist_cons_self _ _))
    · simp only [List.map_cons]
      exact List.Sublist.cons₂ _ (by simpa using ih q)

/-- On a sorted vector whose repeated words carry count 1 behind their first
pair, the loop leaves each word with the sum of the counts of its pairs. -/
theorem reduceFrom_countSum (rest : List Pair) :
    ∀ (p : Pair), SortedByWord (p :: rest) → RepeatsAreUnits (p :: rest) →
      ∀ e ∈ reduceFrom p rest, e.count = countSum e.word (p :: rest) := by
  induction rest with
  | nil =>
    intro p _ _ e he
    simp only [reduceFrom, List.mem_singleton] at he
    subst he
    rw [countSum_cons, if_pos rfl]
    simp [countSum]
  | cons q rest ih =>
    intro p h hu e he
    unfold SortedByWord at h
    rw [List.pairwise_cons] at h
    unfold RepeatsAreUnits at hu
    rw [List.chain'_cons] at hu
    unfold reduceFrom at he
    split at he
    · rename_i heq
      have hpq : p.word = q.word := eq_of_strcmp_eq_zero heq
      have hq1 : q.count = 1 := hu.1 heq
      have hs : SortedByWord ({ p with count := p.count + 1 } :: rest) := by
        unfold SortedByWord
        rw [List.pairwise_cons]
        exact ⟨fun b hb => h.1 b (List.mem_cons_of_mem _ hb), (List.pairwise_cons.mp h.2).2⟩
      have hu2 : RepeatsAreUnits ({ p with count := p.count + 1 } :: rest) := by
        unfold RepeatsAreUnits
        cases rest with
        | nil => exact List.chain'_singleton _
        | cons r rest2 =>
          have hqr := List.chain'_cons.mp hu.2
          rw [List.chain'_cons]
          refine ⟨?_, hqr.2⟩
          intro h0
          apply hqr.1
          rw [← hpq]
          exact h0
      have := ih _ hs hu2 e he
      rw [this, countSum_cons, countSum_cons, countSum_cons, hq1, ← hpq]
      by_cases hep : p.word = e.word
      · simp only [hep, if_true]
        ring
      · simp [hep]
    · rename_i hne
      have hpq : WordLe p.word q.word := h.1 q (List.mem_cons_self _ _)
      have hlt : strcmp p.word q.word < 0 := lt_of_le_of_ne hpq hne
      have hbelow : ∀ b ∈ q :: rest, ¬ b.word = p.word := by
        intro b hb hbp
        have hqb : WordLe q.word b.word := by
          rcases List.mem_cons.mp hb with rfl | hb
          · exact le_of_eq (strcmp_self _)
          · exact (List.pairwise_cons.mp h.2).1 b hb
        have := strcmp_lt_of_lt_of_le hlt hqb
        rw [hbp, strcmp_self] at this
        omega
      rcases List.mem_cons.mp he with rfl | he
      · rw [countSum_cons, if_pos rfl, countSum_eq_zero _ _ hbelow]
        ring
      · have hmem : e.word ∈ (q :: rest).map Pair.word :=
          (mem_word_reduceFrom rest q e.word).mp (List.mem_map_of_mem _ he)
        obtain ⟨b, hb, hbe⟩ := List.mem_map.mp hmem
        have hpe : ¬ p.word = e.word := fun h => hbelow b hb (hbe.trans h.symm)
        rw [ih q h.2 hu.2 e he, countSum_cons (q := p), if_neg hpe]
        ring

theorem runsFrom_congr (p q : Pair) (h : p.word = q.word) (rest : List Pair) :
    runsFrom p rest = runsFrom q rest := by
  cases rest with
  | nil => rfl
  | cons x rest => simp [runsFrom, h]

theorem runsFrom_flatten (rest : List Pair) :
    ∀ (p : Pair), (runsFrom p rest).1 ++ (runsFrom p rest).2.flatten = rest := by
  induction rest with
  | nil => intro p; rfl
  | cons q rest ih =>
    intro p
    unfold runsFrom
    split
    · simp [ih q]
    · simp [ih q]

theorem runsFrom_same_word (rest : List Pair) :
    ∀ (p : Pair), (∀ x ∈ (runsFrom p rest).1, x.word = p.word) ∧
      ∀ r ∈ (runsFrom p rest).2, ∀ x ∈ r, ∀ y ∈ r, x.word = y.word := by
  induction rest with
  | nil => intro p; simp [runsFrom]
  | cons q rest ih =>
    intro p
    have hq := ih q
    have hrun : ∀ x ∈ q :: (runsFrom q rest).1, x.word = q.word := by
      intro x hx
      rcases List.mem_cons.mp hx with rfl | hx
      · rfl
      · exact hq.1 x hx
    unfold runsFrom
    split
    · rename_i heq
      have hpq : p.word = q.word := eq_of_strcmp_eq_zero heq
      exact ⟨fun x hx => (hrun x hx).trans hpq.symm, hq.2⟩
    · refine ⟨by simp, ?_⟩
      intro r hr x hx y hy
      rcases List.mem_cons.mp hr with rfl | hr
      · exact (hrun x hx).trans (hrun y hy).symm
      · exact hq.2 r hr x hx y hy

theorem runs_same_word (v : List Pair) : ∀ r ∈ runs v, ∀ x ∈ r, ∀ y ∈ r, x.word = y.word := by
  cases v with
  | nil => simp [runs]
  | cons p rest =>
    have h := runsFrom_same_word rest p
    have hrun : ∀ x ∈ p :: (runsFrom p rest).1, x.word = p.word := by
      intro x hx
      rcases List.mem_cons.mp hx with rfl | hx
      · rfl
      · exact h.1 x hx
    intro r hr x hx y hy
    rcases List.mem_cons.mp hr with rfl | hr
    · exact (hrun x hx).trans (hrun y hy).symm
    · exact h.2 r hr x hx y hy

theorem runs_flatten (v : List Pair) : (runs v).flatten = v := by
  cases v with
  | nil => rfl
  | cons p rest => simp [runs, runsFrom_flatten rest p]

/-- Neighbouring runs have different words: the runs are maximal. -/
theorem runs_chain (rest : List Pair) :
    ∀ (p : Pair), (runs (p :: rest)).Chain'
      (fun r1 r2 => ∀ x ∈ r1, ∀ y ∈ r2, ¬ x.word = y.word) := by
  induction rest with
  | nil => intro p; simp [runs, runsFrom]
  | cons q rest ih =>
    intro p
    have hq := ih q
    have hsame := runsFrom_same_word rest q
    have hrun : ∀ x ∈ q :: (runsFrom q rest).1, x.word = q.word := by
      intro x hx
      rcases List.mem_cons.mp hx with rfl | hx
      · rfl
      · exact hsame.1 x hx
    simp only [runs] at hq ⊢
    unfold runsFrom
    split
    · rename_i heq
      have hpq : p.word = q.word := eq_of_strcmp_eq_zero heq
      cases hT : (runsFrom q rest).2 with
      | nil => simp
      | cons t T =>
        rw [hT] at hq
        have hc := List.chain'_cons.mp hq
        simp only [List.chain'_cons]
        refine ⟨?_, hc.2⟩
        intro x hx y hy
        have hxq : x.word = q.word := by
          rcases List.mem_cons.mp hx with rfl | hx
          · exact hpq
          · exact hrun x hx
        rw [hxq]
        exact hc.1 q (List.mem_cons_self _ _) y hy
    · rename_i hne
      simp only [List.chain'_cons]
      refine ⟨?_, hq⟩
      intro x hx y hy
      have hxp : x = p := by simpa using hx
      rw [hxp, hrun y hy]
      exact fun h => hne ((strcmp_eq_zero_iff _ _).mpr h)

/-- The loop leaves one pair per run: the first pair of the run with one
more in its count for each pair erased behind it. -/
theorem reduceFrom_eq_collapseRuns (rest : List Pair) :
    ∀ (p : Pair), reduceFrom p rest = collapseRuns (runs (p :: rest)) := by
  induction rest with
  | nil =>
    intro p
    cases p
    simp [reduceFrom, runs, runsFrom, collapseRuns]
  | cons q rest ih =>
    intro p
    by_cases heq : strcmp p.word q.word = 0
    · have hpq : p.word = q.word := eq_of_strcmp_eq_zero heq
      have hc : runsFrom { p with count := p.count + 1 } rest = runsFrom q rest :=
        runsFrom_congr { p with count := p.count + 1 } q hpq rest
      rw [reduceFrom, if_pos heq, ih]
      simp only [runs, runsFrom, heq, if_true, collapseRuns, hc, List.length_cons]
      congr 2
      push_cast
      ring
    · rw [reduceFrom, if_neg heq, ih]
      cases p
      simp [runs, runsFrom, heq, collapseRuns]

theorem collapseRuns_eq_runLengths (rs : List (List Pair))
    (hu : ∀ r ∈ rs, ∀ p ∈ r, p.count = 1) : collapseRuns rs = runLengths rs := by
  induction rs with
  | nil => rfl
  | cons r rs ih =>
    have ih2 := ih (fun r2 hr2 => hu r2 (List.mem_cons_of_mem _ hr2))
    cases r with
    | nil => simp [collapseRuns, runLengths, ih2]
    | cons p r =>
      have hp : p.count = 1 := hu _ (List.mem_cons_self _ _) p (List.mem_cons_self _ _)
      simp only [collapseRuns, runLengths, ih2, hp, List.length_cons]
      congr 2
      push_cast
      ring

/-! ## The reduce loop with `int` counts -/

theorem int_wrap_of_fits (x : Int) (h1 : -2147483648 ≤ x) (h2 : x ≤ 2147483647) :
    int_wrap x = x := by
  unfold int_wrap
  rw [Int.emod_eq_of_lt (by omega) (by omega)]
  omega

theorem reduceLoop_int_eq (rest : List Pair) :
    ∀ (pre : List Pair) (p : Pair) (fuel : Nat), rest.length + 1 ≤ fuel →
      reduceLoop_int fuel (pre ++ p :: rest) pre.length (pre.length + 1)
        = Except.ok (pre ++ reduceFrom_int p rest) := by
  induction rest with
  | nil =>
    intro pre p fuel hf
    obtain ⟨f, rfl⟩ : ∃ f, fuel = f + 1 := ⟨fuel - 1, by simp at hf; omega⟩
    simp [reduceLoop_int, reduceFrom_int]
  | cons q rest ih =>
    intro pre p fuel hf
    obtain ⟨f, rfl⟩ : ∃ f, fuel = f + 1 := ⟨fuel - 1, by simp at hf; omega⟩
    have hf1 : rest.length + 1 ≤ f := by simp at hf; omega
    have hne : ¬ pre.length + 1 = (pre ++ p :: q :: rest).length := by simp
    rw [reduceLoop_int, if_neg hne, getElem?_at_prev, getElem?_at_it]
    by_cases hpq : strcmp p.word q.word = 0
    · simp only [hpq, if_true, eraseIdx_at_it, getElem?_at_prev, set_at_prev]
      rw [ih pre _ f hf1]
      simp [reduceFrom_int, hpq]
    · simp only [hpq, if_false]
      have h := ih (pre ++ [p]) q f hf1
      simp only [List.length_append, List.length_singleton, List.append_assoc,
        List.singleton_append] at h
      rw [h]
      simp [reduceFrom_int, hpq]

theorem reduce_int_cons (p : Pair) (rest : List Pair) :
    reduce_int (p :: rest) = Except.ok (reduceFrom_int p rest) := by
  have h := reduceLoop_int_eq rest [] p ((p :: rest).length + 1) (by simp)
  simpa [reduce_int] using h

/-- While no count leaves the range of `int`, the loop with `int` counts
leaves what the loop with unbounded counts leaves. -/
theorem reduceFrom_int_eq (rest : List Pair) :
    ∀ (p : Pair), RunsFitInt (runs (p :: rest)) → reduceFrom_int p rest = reduceFrom p rest := by
  induction rest with
  | nil => intro p _; rfl
  | cons q rest ih =>
    intro p h
    by_cases heq : strcmp p.word q.word = 0
    · have hpq : p.word = q.word := eq_of_strcmp_eq_zero heq
      have hc : runsFrom { p with count := p.count + 1 } rest = runsFrom q rest :=
        runsFrom_congr { p with count := p.count + 1 } q hpq rest
      simp only [runs, runsFrom, heq, if_true, RunsFitInt, List.length_cons] at h
      have hw : int_wrap (p.count + 1) = p.count + 1 :=
        int_wrap_of_fits _ (by omega) (by push_cast at h; omega)
      rw [reduceFrom_int, if_pos heq, reduceFrom, if_pos heq, hw]
      apply ih
      simp only [runs, RunsFitInt, hc]
      refine ⟨⟨by omega, ?_⟩, h.2⟩
      have := h.1.2
      push_cast at this ⊢
      omega
    · simp only [runs, runsFrom, heq, if_false, RunsFitInt] at h
      rw [reduceFrom_int, if_neg heq, reduceFrom, if_neg heq]
      rw [ih q (by simpa only [runs, RunsFitInt] using h.2)]

theorem reduce_int_eq_reduce (p : Pair) (rest : List Pair)
    (h : RunsFitInt (runs (p :: rest))) : reduce_int (p :: rest) = reduce (p :: rest) := by
  rw [reduce_int_cons, reduce_cons, reduceFrom_int_eq rest p h]

theorem runsFitInt_of_collapse_le (rs : List (List Pair))
    (hmin : ∀ r ∈ rs, ∀ x ∈ r, -2147483648 ≤ x.count)
    (hmax : ∀ e ∈ collapseRuns rs, e.count ≤ 2147483647) : RunsFitInt rs := by
  induction rs with
  | nil => trivial
  | cons r rs ih =>
    cases r with
    | nil =>
      simp only [RunsFitInt]
      exact ih (fun r2 hr2 => hmin r2 (List.mem_cons_of_mem _ hr2))
        (fun e he => hmax e (by simpa [collapseRuns] using he))
    | cons p r =>
      simp only [RunsFitInt]
      refine ⟨⟨hmin _ (List.mem_cons_self _ _) p (List.mem_cons_self _ _), ?_⟩, ?_⟩
      · exact hmax { p with count := p.count + (r.length : Nat) } (by simp [collapseRuns])
      · exact ih (fun r2 hr2 => hmin r2 (List.mem_cons_of_mem _ hr2))
          (fun e he => hmax e (by simp [collapseRuns, he]))

theorem runsFitInt_of_unitCounts (rs : List (List Pair))
    (hu : ∀ r ∈ rs, ∀ x ∈ r, x.count = 1) (hlen : rs.flatten.length ≤ 2147483647) :
    RunsFitInt rs := by
  induction rs with
  | nil => trivial
  | cons r rs ih =>
    have hlen2 : r.length + rs.flatten.length ≤ 2147483647 := by simpa using hlen
    have ih2 := ih (fun r2 hr2 => hu r2 (List.mem_cons_of_mem _ hr2)) (by omega)
    cases r with
    | nil => simpa only [RunsFitInt] using ih2
    | cons p r =>
      have hp : p.count = 1 := hu _ (List.mem_cons_self _ _) p (List.mem_cons_self _ _)
      simp only [RunsFitInt, hp]
      simp only [List.length_cons] at hlen2
      exact ⟨⟨by omega, by omega⟩, ih2⟩

/-- For at most 2147483647 words the table of the coordinator is also what
the reduce loop with `int` counts returns. -/
theorem coordinator_eq_reduce_int (all_words : List Word) (k : Nat) (hk : 1 ≤ k)
    (hlen : all_words.length ≤ 2147483647) :
    coordinator all_words (k + 1) = reduce_int (worker_sort (worker_pairs all_words)) := by
  rw [coordinator_eq_reduce all_words k hk]
  cases hs : worker_sort (worker_pairs all_words) with
  | nil => decide
  | cons p rest =>
    have hperm : (p :: rest).Perm (worker_pairs all_words) := hs ▸ worker_sort_perm _
    have hu : UnitCounts (p :: rest) := unitCounts_of_perm hperm (unitCounts_worker_pairs _)
    have hl : (p :: rest).length = all_words.length := by
      rw [hperm.length_eq, length_worker_pairs]
    symm
    apply reduce_int_eq_reduce
    apply runsFitInt_of_unitCounts
    · intro r hr x hx
      apply hu
      rw [← runs_flatten (p :: rest)]
      exact List.mem_flatten.mpr ⟨r, hr, hx⟩
    · rw [runs_flatten, hl]
      exact hlen

/-! ## The claims -/

/-- C1: for at least one word and at least one worker the coordinator returns a
table that holds every distinct word of the input exactly once and no other
word, each with the number of its occurrences in the input as count. -/
theorem coordinator_counts_words (all_words : List Word) (k : Nat) (hw : all_words ≠ [])
    (hk : 1 ≤ k) :
    ∃ table, coordinator all_words (k + 1) = Except.ok table ∧
      (table.map Pair.word).Nodup ∧
      (∀ w, w ∈ table.map Pair.word ↔ w ∈ all_words) ∧
      ∀ e ∈ table, e.count = (all_words.count e.word : Nat) := by
  obtain ⟨p, rest, hs⟩ := worker_sort_ne_nil all_words hw
  have hperm : (p :: rest).Perm (worker_pairs all_words) := hs ▸ worker_sort_perm _
  have hsorted : SortedByWord (p :: rest) := hs ▸ worker_sort_sorted _
  have hu : UnitCounts (p :: rest) := unitCounts_of_perm hperm (unitCounts_worker_pairs _)
  have hwords : ((p :: rest).map Pair.word).Perm all_words := by
    have := hperm.map Pair.word
    rwa [map_word_worker_pairs] at this
  refine ⟨reduceFrom p rest, ?_, ?_, ?_, ?_⟩
  · rw [coordinator_eq_reduce all_words k hk, hs, reduce_cons]
  · exact strictlySorted_nodup _ (reduceFrom_strictlySorted rest p hsorted)
  · intro w
    rw [mem_word_reduceFrom rest p w]
    exact hwords.mem_iff
  · intro e he
    rw [reduceFrom_count rest p hsorted (fun q hq => hu q (List.mem_cons_of_mem _ hq)) e he,
      hu p (List.mem_cons_self _ _)]
    have hc : ((p :: rest).map Pair.word).count e.word = all_words.count e.word :=
      hwords.countP_eq _
    rw [hc]
    simp

/-- C1, at the words a b a and two workers. -/
theorem coordinator_counts_words_witness :
    ([[97], [98], [97]] : List Word) ≠ [] ∧ 1 ≤ 2 ∧
    ∃ table, coordinator [[97], [98], [97]] (2 + 1) = Except.ok table ∧
      (table.map Pair.word).Nodup ∧
      (∀ w, w ∈ table.map Pair.word ↔ w ∈ ([[97], [98], [97]] : List Word)) ∧
      ∀ e ∈ table, e.count = ((([[97], [98], [97]] : List Word)).count e.word : Nat) :=
  ⟨by decide, by decide, coordinator_counts_words [[97], [98], [97]] 2 (by decide) (by decide)⟩

/-- C2: with no word at all the coordinator returns no table, whatever the
number of workers (`k + 1` of them): the reduce loop reads `prev->word` and
`it->word` in the empty vector. -/
theorem coordinator_no_words (k : Nat) :
    coordinator [] (k + 2) = Except.error Fault.outOfBounds := by
  rw [coordinator_eq_reduce [] (k + 1) (by omega)]
  decide

/-- C3: whatever table the coordinator returns has its words strictly
increasing in the byte-wise lexicographic order of `strcmp`, so no two
entries share a word; a table is returned whenever there is a word. -/
theorem coordinator_table_strictly_sorted (all_words : List Word) (k : Nat) (hk : 1 ≤ k) :
    (all_words ≠ [] → ∃ table, coordinator all_words (k + 1) = Except.ok table) ∧
    ∀ table, coordinator all_words (k + 1) = Except.ok table →
      StrictlySortedByWord table ∧
      table.Pairwise (fun p q => List.Lex (fun x y : Nat => x < y) p.word q.word) ∧
      (table.map Pair.word).Nodup := by
  constructor
  · intro hw
    obtain ⟨table, h, _⟩ := coordinator_sum_counts all_words k hw hk
    exact ⟨table, h⟩
  · intro table h
    rw [coordinator_eq_reduce all_words k hk] at h
    cases hs : worker_sort (worker_pairs all_words) with
    | nil =>
      rw [hs, reduce_nil] at h
      cases h
    | cons p rest =>
      rw [hs, reduce_cons] at h
      injection h with h
      subst h
      have hsorted : SortedByWord (p :: rest) := hs ▸ worker_sort_sorted _
      have hstrict := reduceFrom_strictlySorted rest p hsorted
      exact ⟨hstrict, List.Pairwise.imp (fun {a b} hab => (wordLt_iff_lex a.word b.word).mp hab)
        hstrict, strictlySorted_nodup _ hstrict⟩

/-- C3, at the words b a b and two workers, with the table a 1, b 2. -/
theorem coordinator_table_strictly_sorted_witness :
    1 ≤ 2 ∧ coordinator [[98], [97], [98]] (2 + 1) = Except.ok [⟨[97], 1⟩, ⟨[98], 2⟩] ∧
    StrictlySortedByWord [⟨[97], 1⟩, ⟨[98], 2⟩] :=
  ⟨by decide, by decide,
    ((coordinator_table_strictly_sorted [[98], [97], [98]] 2 (by decide)).2
      [⟨[97], 1⟩, ⟨[98], 2⟩] (by decide)).1⟩

/-- C4: for every vector and at least one worker, the slices cut with
`elements_per_cpu = size / k`, put together in rank order, are the vector. -/
theorem scatter_gather_id {α : Type} (v : List α) (k : Nat) (hk : 1 ≤ k) :
    ∃ parts, elements_per_cpu v.length (k + 1) = Except.ok (v.length / k) ∧
      scatter v (v.length / k) (k + 1) = Except.ok parts ∧ gather parts = v := by
  have he := pred_mul_div_le v.length k
  exact ⟨_, elements_per_cpu_eq _ k hk, scatter_eq v _ k he, flatten_slices v _ k hk he⟩

/-- C4, at a vector of two elements and three workers. -/
theorem scatter_gather_id_witness :
    1 ≤ 3 ∧ ∃ parts, elements_per_cpu ([5, 6] : List Nat).length (3 + 1)
        = Except.ok (([5, 6] : List Nat).length / 3) ∧
      scatter ([5, 6] : List Nat) (([5, 6] : List Nat).length / 3) (3 + 1) = Except.ok parts ∧
      gather parts = [5, 6] :=
  ⟨by decide, scatter_gather_id [5, 6] 3 (by decide)⟩

/-- C5: for every vector and at least one worker there are exactly `k`
slices, the first `k - 1` of `size / k` elements each and the last of
`size - size / k * (k - 1)`; below `k` elements the first `k - 1` slices are
empty and the last one is the whole vector. -/
theorem scatter_slice_sizes {α : Type} (v : List α) (k : Nat) (hk : 1 ≤ k) :
    ∃ parts, elements_per_cpu v.length (k + 1) = Except.ok (v.length / k) ∧
      scatter v (v.length / k) (k + 1) = Except.ok parts ∧
      parts.length = k ∧
      (∀ i, i + 1 < k → parts[i]?.map List.length = some (v.length / k)) ∧
      parts[k - 1]?.map List.length = some (v.length - v.length / k * (k - 1)) ∧
      (v.length < k → (∀ i, i + 1 < k → parts[i]? = some []) ∧ parts[k - 1]? = some v) := by
  have he := pred_mul_div_le v.length k
  refine ⟨_, elements_per_cpu_eq _ k hk, scatter_eq v _ k he, by simp, ?_, ?_, ?_⟩
  · intro i hi
    rw [getElem?_map_range' _ k i (by omega), Option.map_some',
      length_sliceList_of_ne v _ k (i + 1) he (by omega) hi]
  · rw [getElem?_map_range' _ k (k - 1) (by omega), Option.map_some']
    have hk1 : k - 1 + 1 = k := by omega
    rw [hk1, length_sliceList_last, Nat.mul_comm]
  · intro hlt
    have h0 : v.length / k = 0 := Nat.div_eq_of_lt hlt
    constructor
    · intro i hi
      rw [getElem?_map_range' _ k i (by omega)]
      have hne : i + 1 ≠ k := by omega
      simp [sliceList, h0, hne]
    · rw [getElem?_map_range' _ k (k - 1) (by omega)]
      have hk1 : k - 1 + 1 = k := by omega
      simp [sliceList, h0, hk1]

/-- C5, at a vector of seven elements and three workers: slices of 2, 2, 3. -/
theorem scatter_slice_sizes_witness :
    1 ≤ 3 ∧ ∃ parts, elements_per_cpu ([1, 2, 3, 4, 5, 6, 7] : List Nat).length (3 + 1)
        = Except.ok (([1, 2, 3, 4, 5, 6, 7] : List Nat).length / 3) ∧
      scatter ([1, 2, 3, 4, 5, 6, 7] : List Nat) (([1, 2, 3, 4, 5, 6, 7] : List Nat).length / 3)
        (3 + 1) = Except.ok parts ∧
      parts.length = 3 ∧
      (∀ i, i + 1 < 3 → parts[i]?.map List.length
        = some (([1, 2, 3, 4, 5, 6, 7] : List Nat).length / 3)) ∧
      parts[3 - 1]?.map List.length = some (([1, 2, 3, 4, 5, 6, 7] : List Nat).length
        - ([1, 2, 3, 4, 5, 6, 7] : List Nat).length / 3 * (3 - 1)) ∧
      (([1, 2, 3, 4, 5, 6, 7] : List Nat).length < 3 →
        (∀ i, i + 1 < 3 → parts[i]? = some []) ∧ parts[3 - 1]? = some [1, 2, 3, 4, 5, 6, 7]) :=
  ⟨by decide, scatter_slice_sizes [1, 2, 3, 4, 5, 6, 7] 3 (by decide)⟩

/-- C6: the words a b a c b a with two workers are cut into a b a and
c b a, the sorted replies are (a,1) (a,1) (b,1) and (a,1) (b,1) (c,1), and the
table is (a,3) (b,2) (c,1). -/
theorem scenario_six_words_two_workers :
    word_slices [[97], [98], [97], [99], [98], [97]] 3
      = Except.ok [[[97], [98], [97]], [[99], [98], [97]]] ∧
    pair_slices [[97], [98], [97], [99], [98], [97]] 3
      = Except.ok [[⟨[97], 1⟩, ⟨[98], 1⟩, ⟨[97], 1⟩], [⟨[99], 1⟩, ⟨[98], 1⟩, ⟨[97], 1⟩]] ∧
    sorted_replies [[97], [98], [97], [99], [98], [97]] 3
      = Except.ok [[⟨[97], 1⟩, ⟨[97], 1⟩, ⟨[98], 1⟩], [⟨[97], 1⟩, ⟨[98], 1⟩, ⟨[99], 1⟩]] ∧
    coordinator [[97], [98], [97], [99], [98], [97]] 3
      = Except.ok [⟨[97], 3⟩, ⟨[98], 2⟩, ⟨[99], 1⟩] := by
  decide

/-- C7: with no word and three workers every slice of both rounds and every
reply is empty and the merge leaves the empty vector, but the reduce loop then
reads outside it: the coordinator returns no table. -/
theorem scenario_no_words_three_workers :
    word_slices [] 4 = Except.ok [[], [], []] ∧
    pair_slices [] 4 = Except.ok [[], [], []] ∧
    sorted_replies [] 4 = Except.ok [[], [], []] ∧
    merge [[], [], []] = [] ∧
    reduce [] = Except.error Fault.outOfBounds ∧
    merge_reduce [[], [], []] = Except.error Fault.outOfBounds ∧
    coordinator [] 4 = Except.error Fault.outOfBounds := by
  decide

/-- C8: the sorted replies of a run can be merged and reduced in any order of
the replies: the outcome is that of the rank order. -/
theorem merge_reduce_any_reply_order (all_words : List Word) (k : Nat) (hk : 1 ≤ k) :
    ∃ replies, sorted_replies all_words (k + 1) = Except.ok replies ∧
      ∀ rs : List (List Pair), rs.Perm replies → merge_reduce rs = merge_reduce replies := by
  refine ⟨_, sorted_replies_eq all_words k hk, ?_⟩
  intro rs hrs
  have hp := sorted_replies_perm all_words k hk _ (sorted_replies_eq all_words k hk)
  unfold merge_reduce
  rw [merge_eq_of_perm all_words rs (hrs.flatten.trans hp), merge_eq_of_perm all_words _ hp]

/-- C8, at the words b a b c and two workers. -/
theorem merge_reduce_any_reply_order_witness :
    1 ≤ 2 ∧ ∃ replies, sorted_replies [[98], [97], [98], [99]] (2 + 1) = Except.ok replies ∧
      ∀ rs : List (List Pair), rs.Perm replies → merge_reduce rs = merge_reduce replies :=
  ⟨by decide, merge_reduce_any_reply_order [[98], [97], [98], [99]] 2 (by decide)⟩

/-- C9: replies that hold no pair at all are sorted, without a repeated word
and disjoint, yet merging and reducing them returns no table: the reduce loop
reads outside the empty vector. -/
theorem merge_reduce_no_pairs :
    merge_reduce [] = Except.error Fault.outOfBounds ∧
    merge_reduce [[], []] = Except.error Fault.outOfBounds := by
  decide

/-- C10: with a single worker the one slice of both rounds is the whole
vector, inserting the sorted reply pair by pair into the empty vector gives the
reply back, and the coordinator returns the reduce loop's outcome on that
reply. -/
theorem single_worker (all_words : List Word) :
    word_slices all_words 2 = Except.ok [all_words] ∧
    pair_slices all_words 2 = Except.ok [worker_pairs all_words] ∧
    sorted_replies all_words 2 = Except.ok [worker_sort (worker_pairs all_words)] ∧
    merge [worker_sort (worker_pairs all_words)] = worker_sort (worker_pairs all_words) ∧
    coordinator all_words 2 = reduce (worker_sort (worker_pairs all_words)) := by
  have hslice : ∀ {α : Type} (v : List α) (e : Nat), sliceList v e 1 1 = v := by
    intro α v e
    simp [sliceList]
  have h1 := word_slices_eq all_words 1 (le_refl 1)
  have h2 := pair_slices_eq all_words 1 (le_refl 1)
  have h3 := sorted_replies_eq all_words 1 (le_refl 1)
  simp only [List.range', List.map_cons, List.map_nil, hslice] at h1 h2 h3
  exact ⟨h1, h2, h3, merge_singleton _ (worker_sort_sorted _),
    coordinator_eq_reduce all_words 1 (le_refl 1)⟩

/-- C11: the pairs a worker builds from its words are as many as the words,
and the pair at each position holds the word at that position with count 1. -/
theorem worker_pairs_pointwise (words : List Word) :
    (worker_pairs words).length = words.length ∧
    (∀ i : Nat,
      (worker_pairs words)[i]? = words[i]?.map (fun w => ({ word := w, count := 1 } : Pair))) ∧
    (worker_pairs words).map Pair.word = words ∧
    ∀ p ∈ worker_pairs words, p.count = 1 :=
  ⟨length_worker_pairs words, getElem?_worker_pairs words, map_word_worker_pairs words,
    unitCounts_worker_pairs words⟩

/-- C13: the insertion step puts the new pair right before the first pair
with a greater word, or at the back; on a sorted vector it leaves a sorted
vector that holds the old pairs and the new one.  So the vector is sorted
after every insertion of the merge, and at the end it is sorted and holds
exactly the pairs received. -/
theorem merge_insert_keeps_sorted (v : List Pair) (p : Pair) (replies : List (List Pair)) :
    merge_insert p v
      = v.takeWhile (fun q => !decide (strcmp p.word q.word < 0))
        ++ p :: v.dropWhile (fun q => !decide (strcmp p.word q.word < 0)) ∧
    (SortedByWord v → SortedByWord (merge_insert p v)) ∧
    (merge_insert p v).Perm (p :: v) ∧
    merge replies = replies.flatten.foldl (fun acc p => merge_insert p acc) [] ∧
    (∀ n, SortedByWord ((replies.flatten.take n).foldl (fun acc p => merge_insert p acc) [])) ∧
    SortedByWord (merge replies) ∧
    (merge replies).Perm replies.flatten :=
  ⟨merge_insert_eq_takeWhile p v, merge_insert_sorted p v, merge_insert_perm p v,
    merge_eq_foldl replies,
    fun n => foldl_merge_insert_sorted (replies.flatten.take n) [] List.Pairwise.nil,
    merge_sorted replies, merge_perm replies⟩

/-- C13, at the sorted vector (a,1) (c,1) and the new pair (b,1). -/
theorem merge_insert_keeps_sorted_witness :
    SortedByWord [⟨[97], 1⟩, ⟨[99], 1⟩] ∧
    merge_insert ⟨[98], 1⟩ [⟨[97], 1⟩, ⟨[99], 1⟩] = [⟨[97], 1⟩, ⟨[98], 1⟩, ⟨[99], 1⟩] ∧
    SortedByWord (merge_insert ⟨[98], 1⟩ [⟨[97], 1⟩, ⟨[99], 1⟩]) :=
  ⟨by decide, by decide,
    (merge_insert_keeps_sorted [⟨[97], 1⟩, ⟨[99], 1⟩] ⟨[98], 1⟩ []).2.1 (by decide)⟩

/-- C17: the pairs sent to a worker in the second round are the pairs that
worker built from its words in the first round. -/
theorem pair_slices_eq_map_word_slices (all_words : List Word) (k : Nat) (hk : 1 ≤ k) :
    ∃ sent, word_slices all_words (k + 1) = Except.ok sent ∧
      gather (sent.map worker_pairs) = worker_pairs all_words ∧
      pair_slices all_words (k + 1) = Except.ok (sent.map worker_pairs) := by
  refine ⟨_, word_slices_eq all_words k hk, ?_, ?_⟩
  · rw [gather_map_worker_pairs]
    unfold gather
    rw [flatten_slices all_words _ k hk (pred_mul_div_le _ k)]
  · rw [pair_slices_eq all_words k hk, List.map_map]
    congr 1
    apply List.map_congr_left
    intro i _
    exact sliceList_worker_pairs all_words _ k i

/-- C17, at the words a b c and two workers. -/
theorem pair_slices_eq_map_word_slices_witness :
    1 ≤ 2 ∧ ∃ sent, word_slices [[97], [98], [99]] (2 + 1) = Except.ok sent ∧
      gather (sent.map worker_pairs) = worker_pairs [[97], [98], [99]] ∧
      pair_slices [[97], [98], [99]] (2 + 1) = Except.ok (sent.map worker_pairs) :=
  ⟨by decide, pair_slices_eq_map_word_slices [[97], [98], [99]] 2 (by decide)⟩

/-- C18: replies of unit pairs that hold at least one pair give a table, and
the same table whenever each reply is rearranged in any way, indeed whenever
the replies hold the same pairs. -/
theorem merge_reduce_any_order_in_replies (replies : List (List Pair))
    (hu : UnitCounts replies.flatten) (hne : replies.flatten ≠ []) :
    ∃ table, merge_reduce replies = Except.ok table ∧
      (∀ rs, List.Forall₂ List.Perm rs replies → merge_reduce rs = Except.ok table) ∧
      (∀ rs : List (List Pair), rs.flatten.Perm replies.flatten →
        merge_reduce rs = Except.ok table) := by
  cases hm : merge replies with
  | nil =>
    have hperm := merge_perm replies
    rw [hm] at hperm
    exact absurd (List.Perm.nil_eq hperm).symm hne
  | cons p rest =>
    have h0 : merge_reduce replies = Except.ok (reduceFrom p rest) := by
      unfold merge_reduce
      rw [hm, reduce_cons]
    have h1 : ∀ rs : List (List Pair), rs.flatten.Perm replies.flatten →
        merge_reduce rs = Except.ok (reduceFrom p rest) := by
      intro rs hrs
      rw [← h0]
      unfold merge_reduce
      rw [merge_eq_of_flatten_perm rs replies hrs hu]
    exact ⟨_, h0, fun rs hrs => h1 rs (flatten_perm_of_forall₂ hrs), h1⟩

/-- C18, at the replies (b,1) (a,1) and (a,1), with the table (a,2) (b,1). -/
theorem merge_reduce_any_order_in_replies_witness :
    UnitCounts (List.flatten [[⟨[98], 1⟩, ⟨[97], 1⟩], [⟨[97], 1⟩]]) ∧
    List.flatten [[(⟨[98], 1⟩ : Pair), ⟨[97], 1⟩], [⟨[97], 1⟩]] ≠ [] ∧
    ∃ table, merge_reduce [[⟨[98], 1⟩, ⟨[97], 1⟩], [⟨[97], 1⟩]] = Except.ok table ∧
      (∀ rs, List.Forall₂ List.Perm rs [[(⟨[98], 1⟩ : Pair), ⟨[97], 1⟩], [⟨[97], 1⟩]] →
        merge_reduce rs = Except.ok table) ∧
      (∀ rs : List (List Pair),
        rs.flatten.Perm (List.flatten [[(⟨[98], 1⟩ : Pair), ⟨[97], 1⟩], [⟨[97], 1⟩]]) →
        merge_reduce rs = Except.ok table) :=
  ⟨by decide, by decide,
    merge_reduce_any_order_in_replies [[⟨[98], 1⟩, ⟨[97], 1⟩], [⟨[97], 1⟩]] (by decide)
      (by decide)⟩

/-- C19: with at least one worker every slice has
`start ≤ end ≤ size` of the vector, so each range constructor succeeds, also
for a vector of as many pairs as there were words; and the division of line
70 has a divisor other than 0 exactly when there is a worker. -/
theorem slice_bounds {α : Type} (v : List α) (total size k i : Nat) (hk : 1 ≤ k)
    (hik : i ≤ k) (hv : v.length = total) :
    (k - 1) * (total / k) ≤ total ∧
    (i - 1) * (total / k) ≤ (if i ≠ k + 1 - 1 then i * (total / k) else v.length) ∧
    (if i ≠ k + 1 - 1 then i * (total / k) else v.length) ≤ v.length ∧
    slice v (total / k) (k + 1) i = Except.ok (sliceList v (total / k) k i) ∧
    ((∃ e, elements_per_cpu total size = Except.ok e) ↔ 1 ≤ size - 1) ∧
    (elements_per_cpu total size = Except.error Fault.divisionByZero ↔ size - 1 = 0) := by
  have he := pred_mul_div_le total k
  have he2 : (k - 1) * (total / k) ≤ v.length := hv ▸ he
  refine ⟨he, ?_, ?_, slice_eq v _ k i he2 hik, ?_, ?_⟩
  · by_cases h : i = k
    · subst h
      simpa using he2
    · have h2 : i ≠ k + 1 - 1 := by simpa using h
      rw [if_pos h2]
      exact pred_mul_le_mul i _
  · by_cases h : i = k
    · subst h
      simp
    · have h2 : i ≠ k + 1 - 1 := by simpa using h
      rw [if_pos h2]
      exact mul_le_of_lt_workers (by omega) he2
  · unfold elements_per_cpu
    by_cases h : size - 1 = 0
    · simp [h]
    · simp [h]
      omega
  · unfold elements_per_cpu
    by_cases h : size - 1 = 0
    · simp [h]
    · simp [h]

/-- C19, at a vector of five elements, three workers and the last rank. -/
theorem slice_bounds_witness :
    1 ≤ 3 ∧ 3 ≤ 3 ∧ ([1, 2, 3, 4, 5] : List Nat).length = 5 ∧
    slice ([1, 2, 3, 4, 5] : List Nat) (5 / 3) (3 + 1) 3
      = Except.ok (sliceList ([1, 2, 3, 4, 5] : List Nat) (5 / 3) 3 3) :=
  ⟨by decide, by decide, by decide,
    (slice_bounds ([1, 2, 3, 4, 5] : List Nat) 5 4 3 3 (by decide) (by decide)
      (by decide)).2.2.2.1⟩

/-- C14: on a sorted vector of pairs with counts of at least 1, in which
every pair that directly follows a pair with the same word has count 1 and the
counts of each word add up to at most 2147483647, the reduce loop with its
`int` counts returns one pair per word, strictly increasing, with the same
words, and each count is the sum of the counts of the pairs with that word:
every erased pair adds 1, its own count. -/
theorem reduce_sums_unit_repeats (p : Pair) (rest : List Pair)
    (hs : SortedByWord (p :: rest)) (hu : RepeatsAreUnits (p :: rest))
    (hpos : ∀ q ∈ p :: rest, 1 ≤ q.count)
    (hmax : ∀ q ∈ p :: rest, countSum q.word (p :: rest) ≤ 2147483647) :
    ∃ table, reduce_int (p :: rest) = Except.ok table ∧
      StrictlySortedByWord table ∧
      (∀ w, w ∈ table.map Pair.word ↔ w ∈ (p :: rest).map Pair.word) ∧
      ∀ e ∈ table, e.count = countSum e.word (p :: rest) := by
  have hcount := reduceFrom_countSum rest p hs hu
  have hfit : RunsFitInt (runs (p :: rest)) := by
    apply runsFitInt_of_collapse_le
    · intro r hr x hx
      have hmem : x ∈ p :: rest := by
        rw [← runs_flatten (p :: rest)]
        exact List.mem_flatten.mpr ⟨r, hr, hx⟩
      have := hpos x hmem
      omega
    · intro e he
      rw [← reduceFrom_eq_collapseRuns] at he
      rw [hcount e he]
      have hmem : e.word ∈ (p :: rest).map Pair.word :=
        (mem_word_reduceFrom rest p e.word).mp (List.mem_map_of_mem _ he)
      obtain ⟨q, hq, hqe⟩ := List.mem_map.mp hmem
      rw [← hqe]
      exact hmax q hq
  refine ⟨reduceFrom p rest, ?_, reduceFrom_strictlySorted rest p hs,
    mem_word_reduceFrom rest p, hcount⟩
  rw [reduce_int_eq_reduce p rest hfit, reduce_cons]

/-- C14, at the vector (a,5) (a,1) (b,2), reduced to (a,6) (b,2). -/
theorem reduce_sums_unit_repeats_witness :
    SortedByWord [⟨[97], 5⟩, ⟨[97], 1⟩, ⟨[98], 2⟩] ∧
    RepeatsAreUnits [⟨[97], 5⟩, ⟨[97], 1⟩, ⟨[98], 2⟩] ∧
    (∀ q ∈ ([⟨[97], 5⟩, ⟨[97], 1⟩, ⟨[98], 2⟩] : List Pair), 1 ≤ q.count) ∧
    (∀ q ∈ ([⟨[97], 5⟩, ⟨[97], 1⟩, ⟨[98], 2⟩] : List Pair),
      countSum q.word [⟨[97], 5⟩, ⟨[97], 1⟩, ⟨[98], 2⟩] ≤ 2147483647) ∧
    reduce_int [⟨[97], 5⟩, ⟨[97], 1⟩, ⟨[98], 2⟩] = Except.ok [⟨[97], 6⟩, ⟨[98], 2⟩] ∧
    ∃ table, reduce_int [⟨[97], 5⟩, ⟨[97], 1⟩, ⟨[98], 2⟩] = Except.ok table ∧
      StrictlySortedByWord table ∧
      (∀ w, w ∈ table.map Pair.word ↔
        w ∈ ([⟨[97], 5⟩, ⟨[97], 1⟩, ⟨[98], 2⟩] : List Pair).map Pair.word) ∧
      ∀ e ∈ table, e.count = countSum e.word [⟨[97], 5⟩, ⟨[97], 1⟩, ⟨[98], 2⟩] :=
  ⟨by decide, by simp [RepeatsAreUnits, strcmp], by decide, by decide, by decide,
    reduce_sums_unit_repeats ⟨[97], 5⟩ [⟨[97], 1⟩, ⟨[98], 2⟩] (by decide)
      (by simp [RepeatsAreUnits, strcmp]) (by decide) (by decide)⟩

/-- C14 as stated fails: the sorted vector (a,1) (a,2) has counts 1 and 2 for
the word a, sum 3, and the reduce loop returns (a,2): the erased pair adds 1,
not its count 2. -/
theorem reduce_adds_one_not_count :
    SortedByWord [⟨[97], 1⟩, ⟨[97], 2⟩] ∧
    (∀ q ∈ ([⟨[97], 1⟩, ⟨[97], 2⟩] : List Pair), 1 ≤ q.count) ∧
    reduce_int [⟨[97], 1⟩, ⟨[97], 2⟩] = Except.ok [⟨[97], 2⟩] ∧
    countSum [97] [⟨[97], 1⟩, ⟨[97], 2⟩] = 3 := by
  decide

/-- C15: one pass of the reduce loop over a sorted vector returns a vector
whose words increase strictly, so no two neighbours share a word; the words
are those of the input, in the input's order; a second pass changes nothing. -/
theorem reduce_single_pass (p : Pair) (rest : List Pair) (hs : SortedByWord (p :: rest)) :
    ∃ table, reduce (p :: rest) = Except.ok table ∧
      StrictlySortedByWord table ∧
      table.Chain' (fun x y => ¬ x.word = y.word) ∧
      (∀ w, w ∈ table.map Pair.word ↔ w ∈ (p :: rest).map Pair.word) ∧
      (table.map Pair.word).Sublist ((p :: rest).map Pair.word) ∧
      reduce table = Except.ok table := by
  have hstrict := reduceFrom_strictlySorted rest p hs
  refine ⟨reduceFrom p rest, reduce_cons p rest, hstrict, ?_, mem_word_reduceFrom rest p,
    reduceFrom_words_sublist rest p, ?_⟩
  · refine List.Pairwise.chain' (List.Pairwise.imp ?_ hstrict)
    intro x y hlt heq
    unfold WordLt at hlt
    rw [heq, strcmp_self] at hlt
    omega
  · cases ht : reduceFrom p rest with
    | nil => exact absurd ht (reduceFrom_ne_nil rest p)
    | cons e tail =>
      rw [ht] at hstrict
      rw [reduce_cons, reduceFrom_of_strictlySorted tail e hstrict]

/-- C15, at the vector (a,1) (a,1) (b,1), reduced to (a,2) (b,1). -/
theorem reduce_single_pass_witness :
    SortedByWord [⟨[97], 1⟩, ⟨[97], 1⟩, ⟨[98], 1⟩] ∧
    reduce [⟨[97], 1⟩, ⟨[97], 1⟩, ⟨[98], 1⟩] = Except.ok [⟨[97], 2⟩, ⟨[98], 1⟩] ∧
    ∃ table, reduce [⟨[97], 1⟩, ⟨[97], 1⟩, ⟨[98], 1⟩] = Except.ok table ∧
      StrictlySortedByWord table ∧
      table.Chain' (fun x y => ¬ x.word = y.word) ∧
      (∀ w, w ∈ table.map Pair.word ↔
        w ∈ ([⟨[97], 1⟩, ⟨[97], 1⟩, ⟨[98], 1⟩] : List Pair).map Pair.word) ∧
      (table.map Pair.word).Sublist
        (([⟨[97], 1⟩, ⟨[97], 1⟩, ⟨[98], 1⟩] : List Pair).map Pair.word) ∧
      reduce table = Except.ok table :=
  ⟨by decide, by decide,
    reduce_single_pass ⟨[97], 1⟩ [⟨[97], 1⟩, ⟨[98], 1⟩] (by decide)⟩

/-- C16: on every vector with at least one pair, sorted or not, in whose
runs the first count is an `int` and stays at most 2147483647 when 1 is added
for every other pair of the run, the reduce loop with its `int` counts returns
one pair per maximal run of neighbours with the same word: the first pair of
the run, its count raised by the number of pairs erased behind it; when all
counts are 1 that count is the length of the run. -/
theorem reduce_eq_collapseRuns (p : Pair) (rest : List Pair)
    (hfit : RunsFitInt (runs (p :: rest))) :
    (runs (p :: rest)).flatten = p :: rest ∧
    (∀ r ∈ runs (p :: rest), ∀ x ∈ r, ∀ y ∈ r, x.word = y.word) ∧
    (runs (p :: rest)).Chain' (fun r1 r2 => ∀ x ∈ r1, ∀ y ∈ r2, ¬ x.word = y.word) ∧
    reduce_int (p :: rest) = Except.ok (collapseRuns (runs (p :: rest))) ∧
    (UnitCounts (p :: rest) →
      reduce_int (p :: rest) = Except.ok (runLengths (runs (p :: rest)))) := by
  have hred : reduce_int (p :: rest) = Except.ok (collapseRuns (runs (p :: rest))) := by
    rw [reduce_int_eq_reduce p rest hfit, reduce_cons, reduceFrom_eq_collapseRuns]
  refine ⟨runs_flatten _, runs_same_word _, runs_chain rest p, hred, ?_⟩
  intro hu
  rw [hred, collapseRuns_eq_runLengths]
  intro r hr x hx
  apply hu
  rw [← runs_flatten (p :: rest)]
  exact List.mem_flatten.mpr ⟨r, hr, hx⟩

/-- C16, at the unsorted unit pairs a a b a: runs a a, b, a, reduced to
(a,2) (b,1) (a,1). -/
theorem reduce_eq_collapseRuns_witness :
    RunsFitInt (runs [⟨[97], 1⟩, ⟨[97], 1⟩, ⟨[98], 1⟩, ⟨[97], 1⟩]) ∧
    UnitCounts [⟨[97], 1⟩, ⟨[97], 1⟩, ⟨[98], 1⟩, ⟨[97], 1⟩] ∧
    runLengths (runs [⟨[97], 1⟩, ⟨[97], 1⟩, ⟨[98], 1⟩, ⟨[97], 1⟩])
      = [⟨[97], 2⟩, ⟨[98], 1⟩, ⟨[97], 1⟩] ∧
    reduce_int [⟨[97], 1⟩, ⟨[97], 1⟩, ⟨[98], 1⟩, ⟨[97], 1⟩]
      = Except.ok (runLengths (runs [⟨[97], 1⟩, ⟨[97], 1⟩, ⟨[98], 1⟩, ⟨[97], 1⟩])) :=
  ⟨by decide, by decide, by decide,
    (reduce_eq_collapseRuns ⟨[97], 1⟩ [⟨[97], 1⟩, ⟨[98], 1⟩, ⟨[97], 1⟩] (by decide)).2.2.2.2
      (by decide)⟩

/-- C16 as stated fails: on (a,2147483647) (a,1) the count 2147483647 plus the
one erased pair is 2147483648, and the reduce loop with its `int` count returns
(a,-2147483648). -/
theorem reduce_int_overflow :
    reduce_int [⟨[97], 2147483647⟩, ⟨[97], 1⟩] = Except.ok [⟨[97], -2147483648⟩] ∧
    collapseRuns (runs [⟨[97], 2147483647⟩, ⟨[97], 1⟩]) = [⟨[97], 2147483648⟩] ∧
    ¬ RunsFitInt (runs [⟨[97], 2147483647⟩, ⟨[97], 1⟩]) := by
  decide

end CountWords
